import Mathlib

/-!
Verification of the thetadata-api repository: a shallow embedding of
`calendar_utils.py`, `corrector.py` (`fix_dataframe`), `models.py`
(`UnderlyingData.__post_init__`) and the underlying-price derivation of
`client.py` (`fetch_underlying_ohlc`), with theorems settling the spec claims.

Modelling conventions:
* A calendar date is its proleptic-Gregorian ordinal shifted so that
  `weekday d = d % 7` with Monday = 0, exactly Python `date.weekday()`;
  `d + 1` is `date + timedelta(days=1)`.
* Numeric cell values are `ℤ`.  The embedded code never performs arithmetic
  on prices: it only compares them with 0, copies them, sorts them, takes
  max / min / first / last and counts rows, so any linearly ordered value
  type is faithful; `ℤ` keeps every definition executable by `decide`.
* A pandas DataFrame is a `Table`: a list of column names plus row-major
  cells, a cell being `Option ℤ` (`none` = NaN / missing).
* Pandas facts used by the embedding (recorded where they matter):
  `Series.combine_first` reindexes to `self.index.union(other.index)`, and
  `Index.union` with its default `sort=None` returns `self`'s order when the
  two indexes are equal element-for-element and otherwise sorts the united
  labels ascending; `DataFrame.bfill` fills a missing cell from the nearest
  later valid value of the same column, `ffill` from the nearest earlier one.
-/

namespace ThetaData

/-- Python `date.weekday()`: 0 = Monday .. 6 = Sunday.  A calendar date is
an integer (its proleptic-Gregorian ordinal, shifted so day 0 is a
Monday); adding 1 is `date + timedelta(days=1)`. -/
def weekday (d : ℤ) : ℤ := d % 7

/-- Loop of `last_trading_day_of_week` (calendar_utils.py): the candidate
starts at Friday and runs down while `candidate >= friday - 4`, i.e. at most
5 steps; a candidate is returned when it is a weekday not in `closed`. -/
def lastTradingGo (closed : Finset ℤ) : ℤ → ℕ → Option ℤ
  | _, 0 => none
  | c, n + 1 => if weekday c < 5 ∧ c ∉ closed then some c else lastTradingGo closed (c - 1) n

/-- `calendar_utils.last_trading_day_of_week`. -/
def last_trading_day_of_week (current : ℤ) (closed : Finset ℤ) : Option ℤ :=
  lastTradingGo closed (current + (4 - weekday current)) 5

/-- `calendar_utils.wednesday_of_week`. -/
def wednesday_of_week (current : ℤ) : ℤ := current + (2 - weekday current)

/-- Loop of `get_next_valid_vix_expiration`: 45 candidates starting at
`current_date + 1`, the first one in `avail` is returned. -/
def nextVixGo (avail : List ℤ) : ℤ → ℕ → Option ℤ
  | _, 0 => none
  | c, n + 1 => if c ∈ avail then some c else nextVixGo avail (c + 1) n

/-- `calendar_utils.get_next_valid_vix_expiration`; `avail` is the set of
available expirations (membership is all the function uses of it). -/
def get_next_valid_vix_expiration (current : ℤ) (avail : List ℤ) : Option ℤ :=
  nextVixGo avail (current + 1) 45

/-- Python `sorted(list(set(l)))`: the distinct values of `l` in ascending
order. -/
def sortedDedup (l : List ℤ) : List ℤ := (List.insertionSort (· ≤ ·) l).dedup

/-- `calendar_utils.select_target_expirations`.  `avail_set = set(available)`
is used only for membership, so list membership models it. -/
def select_target_expirations (symbol : String) (current : ℤ)
    (available : List ℤ) (closed : Finset ℤ) : List ℤ :=
  let weekly := last_trading_day_of_week current closed
  let targets : List ℤ :=
    if symbol = "SPX" ∨ symbol = "SPXW" ∨ symbol = "SPY" ∨ symbol = "QQQ" then
      (if current ∈ available then [current] else []) ++
        (match weekly with
          | some w => if w ≠ current ∧ w ∈ available then [w] else []
          | none => [])
    else if symbol = "VIX" then
      if weekday current = 0 ∨ weekday current = 1 then
        if wednesday_of_week current ∈ available ∧ wednesday_of_week current ∉ closed then
          [wednesday_of_week current]
        else
          match get_next_valid_vix_expiration current available with
          | some e => [e]
          | none => []
      else
        match get_next_valid_vix_expiration current available with
        | some e => [e]
        | none => []
    else []
  sortedDedup targets

/-- A DataFrame cell: `none` models NaN / missing, `some v` a value. -/
abbrev Cell := Option ℤ

/-- A pandas DataFrame: named columns and row-major cells. -/
structure Table where
  columns : List String
  rows : List (List Cell)
deriving DecidableEq

/-- Well-formedness of a table: distinct column names (pandas frames built
from records have unique columns) and rectangular rows. -/
@[reducible] def Table.WF (t : Table) : Prop :=
  t.columns.Nodup ∧ ∀ r ∈ t.rows, r.length = t.columns.length

/-- The designated price columns of corrector.py line 16, in declaration
order: `['open', 'high', 'low', 'close', 'underlying_price']`. -/
def priceCols : List String := ["open", "high", "low", "close", "underlying_price"]

/-- Whether a column name is a designated price column. -/
def isPrice (c : String) : Bool := priceCols.contains c

/-- `cols` of corrector.py line 16: the designated columns present in the
frame, kept in their `priceCols` declaration order. -/
def desigCols (columns : List String) : List String :=
  priceCols.filter (fun c => columns.contains c)

/-- First index of a column name in the column list (label lookup). -/
def idxOf? (c : String) : List String → Option ℕ
  | [] => none
  | x :: xs => if x = c then some 0 else (idxOf? c xs).map (· + 1)

/-- The cell of a row under a column label; `none` when the label is absent
(Python `row.get(label)` is `None` then). -/
def cellAt (columns : List String) (row : List Cell) (c : String) : Cell :=
  match idxOf? c columns with
  | some i => (row.get? i).getD none
  | none => none

/-- `row[cols]`: the designated cells of a row, in `desigCols` order. -/
def rowDesig (columns : List String) (row : List Cell) : List Cell :=
  (desigCols columns).map (cellAt columns row)

/-- `row[cols].isna().any()`. -/
def anyNoneDesig (columns : List String) (row : List Cell) : Bool :=
  (rowDesig columns row).any (fun v => v.isNone)

/-- `row[cols].isna().all()`. -/
def allNoneDesig (columns : List String) (row : List Cell) : Bool :=
  (rowDesig columns row).all (fun v => v.isNone)

/-- Code-point comparison of strings, as Python compares `str` labels. -/
def lexLe : List ℕ → List ℕ → Bool
  | [], _ => true
  | _ :: _, [] => false
  | a :: as, b :: bs => if a < b then true else if b < a then false else lexLe as bs

/-- `a <= b` on column labels by code points. -/
def strLe (a b : String) : Bool := lexLe (a.toList.map Char.toNat) (b.toList.map Char.toNat)

/-- Column labels in ascending label order. -/
def sortCols (columns : List String) : List String :=
  List.insertionSort (fun a b => strLe a b = true) columns

/-- The label order of `row.combine_first(pd.Series(row[cols]))` in
corrector.py line 28: the combined series is reindexed to
`row.index.union(Index(cols))`, and pandas `Index.union` with its default
`sort=None` keeps `self`'s order when the two indexes are equal
element-for-element and otherwise sorts the united labels ascending.
`Index(cols) ⊆ row.index` always, so the united label set is the full
column list. -/
def fallbackOrder (columns : List String) : List String :=
  if columns = desigCols columns then columns else sortCols columns

/-- `row.combine_first(pd.Series(row[cols])).dropna().iloc[0]` of
corrector.py line 28: the first non-missing cell of the whole row in
`fallbackOrder`; `none` when every cell is missing (the code would raise). -/
def fallbackVal (columns : List String) (row : List Cell) : Cell :=
  ((fallbackOrder columns).map (cellAt columns row)).findSome? (fun v => v)

/-- `valid_val` of corrector.py line 28: the row's `close` if present and
valid, otherwise the combine-first fallback. -/
def validVal (columns : List String) (row : List Cell) : Cell :=
  match cellAt columns row "close" with
  | some v => some v
  | none => fallbackVal columns row

/-- Pass 1 of `fix_dataframe` on one row (line 22):
`df_clean[cols] = df_clean[cols].replace(0, np.nan)`. -/
def pass1row (columns : List String) (row : List Cell) : List Cell :=
  List.zipWith (fun c v => if isPrice c ∧ v = some 0 then none else v) columns row

/-- Pass 2 of `fix_dataframe` on one row (lines 25-29): when some but not
all designated cells are missing, the missing designated cells are set to
`valid_val`; other cells are untouched. -/
def pass2row (columns : List String) (row : List Cell) : List Cell :=
  if anyNoneDesig columns row ∧ ¬ allNoneDesig columns row then
    List.zipWith (fun c v => if isPrice c ∧ v = none then validVal columns row else v)
      columns row
  else row

/-- First non-missing cell of a list. -/
def firstSome (l : List Cell) : Cell := l.findSome? (fun v => v)

/-- pandas `bfill` on one column: a missing cell takes the nearest later
valid value, if any. -/
def bfill : List Cell → List Cell
  | [] => []
  | v :: rest => (if v.isSome then v else firstSome rest) :: bfill rest

/-- pandas `ffill` on one column, carrying the last valid value `prev`. -/
def ffillGo : Cell → List Cell → List Cell
  | _, [] => []
  | prev, v :: rest => (if v.isSome then v else prev) :: ffillGo (if v.isSome then v else prev) rest

/-- `col.bfill().ffill()`: backward fill then forward fill of one column. -/
def bfillffill (l : List Cell) : List Cell := ffillGo none (bfill l)

/-- Pass 3 of `fix_dataframe` (lines 32-34):
`df_clean[cols] = df_clean[cols].bfill().ffill()` — each designated column
is backward- then forward-filled; other columns are untouched. -/
def pass3rows (columns : List String) (rows : List (List Cell)) : List (List Cell) :=
  let newCols : List (List Cell) :=
    (List.range columns.length).map (fun j =>
      let col := rows.map (fun r => (r.get? j).getD none)
      if isPrice (columns.getD j "") then bfillffill col else col)
  (List.range rows.length).map (fun i => newCols.map (fun col => (col.get? i).getD none))

/-- Column `j` of a row list, as one pandas column. -/
def colJ (rows : List (List Cell)) (j : ℕ) : List Cell :=
  rows.map (fun r => (r.get? j).getD none)

/-- `corrector.fix_dataframe`. -/
def fix_dataframe (t : Table) : Table :=
  if t.rows = [] then t
  else if desigCols t.columns = [] then t
  else
    let t1rows := t.rows.map (pass1row t.columns)
    let t2rows := t1rows.map (pass2row t.columns)
    let t3rows :=
      if t2rows.any (fun r => allNoneDesig t.columns r) then pass3rows t.columns t2rows
      else t2rows
    { t with rows := t3rows }

/-- The row list after passes 1 and 2 of `fix_dataframe`. -/
def pass12 (t : Table) : List (List Cell) :=
  (t.rows.map (pass1row t.columns)).map (pass2row t.columns)

/-- Cell of a table at row `i`, column position `j` (`none` out of range). -/
def cellIJ (t : Table) (i j : ℕ) : Cell :=
  (((t.rows.get? i).getD []).get? j).getD none

/-- Row `i` of a table. -/
def rowAt (t : Table) (i : ℕ) : List Cell := (t.rows.get? i).getD []

/-- An option right, `C` tried before `P` in client.py line 76. -/
inductive OptRight
  | C
  | P
deriving DecidableEq

/-- One Greeks data row as far as the derivation inspects it: its
millisecond timestamp and its `underlying_price` entry — `none` when the
key is absent from the JSON object, `some none` when present but NaN,
`some (some v)` when present and valid. -/
structure GRow where
  timestamp : ℤ
  up : Option Cell
deriving DecidableEq

/-- One element of the parsed `response` list: either a flat row or a v3
nested `{contract, data}` wrapper (client.py lines 96-101). -/
inductive RawItem
  | flat (r : GRow)
  | nested (data : List GRow)
deriving DecidableEq

/-- The remote results the derivation consumes, as parsed lists: the
expiration listing for the (symbol, date) under consideration, the raw
strike listing per expiration, and the parsed Greeks response per
(expiration, strike, right).  Strikes are integers here; the code only
sorts them and picks one, so the order embedding is faithful. -/
structure GreeksEnv where
  expirations : List ℤ
  strikes : ℤ → List ℤ
  greeks : ℤ → ℤ → OptRight → List RawItem

/-- The outcome of `fetch_underlying_ohlc`: a derived frame, or one of
its three failure modes — the no-expirations raise (line 63), the
end-of-search raise (line 123), and the `UnderlyingData.__post_init__`
ValueError on an empty frame (models.py lines 14-16). -/
inductive DRes
  | ok (tb : Table)
  | noExpirations
  | derivationFailed
  | emptyUnderlying
deriving DecidableEq

/-- Ascending sort, as `get_strikes` returns `sorted(processed_strikes)`. -/
def sortInts (l : List ℤ) : List ℤ := List.insertionSort (· ≤ ·) l

/-- `strikes[len(strikes)//2]` on the sorted strike list (client.py
line 72); 0 is a dummy never used (the caller checks non-emptiness). -/
def chosenStrikeOf (env : GreeksEnv) (e : ℤ) : ℤ :=
  (sortInts (env.strikes e)).getD ((sortInts (env.strikes e)).length / 2) 0

/-- Flattening of the v3 nested wrapper (client.py lines 96-101). -/
def flattenItems : List RawItem → List GRow
  | [] => []
  | .flat r :: rest => r :: flattenItems rest
  | .nested d :: rest => d ++ flattenItems rest

/-- `'underlying_price' in df.columns`: a DataFrame built from records has
a column exactly when some record carries the key. -/
def hasUPcol (rows : List GRow) : Bool := rows.any (fun r => r.up.isSome)

/-- Whether a row survives `df.dropna(subset=['underlying_price'])`. -/
def validUp (r : GRow) : Bool := (r.up.getD none).isSome

/-- The underlying price of a valid row (0 is a dummy never used). -/
def upValOf (r : GRow) : ℤ := (r.up.getD none).getD 0

/-- `df['timestamp'].dt.floor('min')`: the 1-minute bucket of a
millisecond timestamp. -/
def minuteOf (r : GRow) : ℤ := r.timestamp.fdiv 60000

/-- `df.sort_values('timestamp')`. -/
def sortByTs (rows : List GRow) : List GRow :=
  List.insertionSort (fun a b => a.timestamp ≤ b.timestamp) rows

/-- One aggregated OHLC row (client.py lines 112-115): for one minute
bucket, `open=first, high=max, low=min, close=last, volume=count` of the
bucket's values, columns `[timestamp, open, high, low, close, volume]`. -/
def aggRow (m : ℤ) (vals : List ℤ) : List Cell :=
  [some m, vals.head?, vals.max?, vals.min?, vals.getLast?, some (vals.length : ℤ)]

/-- The aggregated OHLC frame of the valid, time-sorted Greeks rows:
group keys ascending (pandas groupby sorts keys), group members in frame
order. -/
def underlyingFrame (rows : List GRow) : Table :=
  { columns := ["timestamp", "open", "high", "low", "close", "volume"],
    rows := (sortedDedup (rows.map minuteOf)).map (fun m =>
      aggRow m ((rows.filter (fun r => decide (minuteOf r = m))).map upValOf)) }

/-- The committed tail of the search (client.py lines 107-121): once a
response with rows and an `underlying_price` column is found, drop the
rows with missing underlying price, sort by time, aggregate by minute,
repair, and wrap in `UnderlyingData` — whose constructor raises when the
frame is empty, which happens exactly when no row had a valid price. -/
def deriveFrame (rows : List GRow) : DRes :=
  let valid := sortByTs (rows.filter validUp)
  if valid = [] then .emptyUnderlying
  else .ok (fix_dataframe (underlyingFrame valid))

/-- Whether a (expiration, strike, right) attempt is committed to rather
than skipped: non-empty parsed response, non-empty flattened rows, and an
`underlying_price` column (the three `continue`s of lines 92-105). -/
def usableRight (env : GreeksEnv) (e K : ℤ) (r : OptRight) : Bool :=
  !(env.greeks e K r).isEmpty && !(flattenItems (env.greeks e K r)).isEmpty
    && hasUPcol (flattenItems (env.greeks e K r))

/-- The `for right in ["C", "P"]` loop (lines 76-121): the first usable
right is committed to; `none` when both are skipped. -/
def tryRights (env : GreeksEnv) (e K : ℤ) : List OptRight → Option DRes
  | [] => none
  | r :: rs =>
    if usableRight env e K r then some (deriveFrame (flattenItems (env.greeks e K r)))
    else tryRights env e K rs

/-- The `for target_exp in exps[:2]` loop (lines 66-121): an expiration
with no strikes is skipped; otherwise both rights are tried at the ATM
strike; the search falls through to the next expiration when both are
skipped, and raises `derivationFailed` when the expirations are
exhausted (line 123). -/
def tryExps (env : GreeksEnv) : List ℤ → DRes
  | [] => .derivationFailed
  | e :: rest =>
    if sortInts (env.strikes e) = [] then tryExps env rest
    else
      match tryRights env e (chosenStrikeOf env e) [OptRight.C, OptRight.P] with
      | some res => res
      | none => tryExps env rest

/-- `client.fetch_underlying_ohlc`, over the parsed remote results. -/
def fetch_underlying_ohlc (env : GreeksEnv) : DRes :=
  if env.expirations = [] then .noExpirations
  else tryExps env (env.expirations.take 2)

/-- Whether an expiration contributes a usable attempt: it has strikes and
some right at the ATM strike is usable. -/
def expUsable (env : GreeksEnv) (e : ℤ) : Bool :=
  !(sortInts (env.strikes e)).isEmpty
    && [OptRight.C, OptRight.P].any (usableRight env e (chosenStrikeOf env e))

/-- The 2-expiration × 2-right search finds nothing usable. -/
def searchExhausted (env : GreeksEnv) : Bool :=
  (env.expirations.take 2).all (fun e => !expUsable env e)

/-- The first usable right among a right list, in order. -/
def firstUsableRights (env : GreeksEnv) (e K : ℤ) : List OptRight → Option OptRight
  | [] => none
  | r :: rs => if usableRight env e K r then some r else firstUsableRights env e K rs

/-- The (expiration, right) the search commits to, in search order. -/
def firstUsableIn (env : GreeksEnv) : List ℤ → Option (ℤ × OptRight)
  | [] => none
  | e :: rest =>
    if sortInts (env.strikes e) = [] then firstUsableIn env rest
    else
      match firstUsableRights env e (chosenStrikeOf env e) [OptRight.C, OptRight.P] with
      | some r => some (e, r)
      | none => firstUsableIn env rest

/-- The (expiration, right) combination `fetch_underlying_ohlc` commits
to, if any. -/
def firstUsable (env : GreeksEnv) : Option (ℤ × OptRight) :=
  firstUsableIn env (env.expirations.take 2)

/-- Whether a derivation result is a returned series. -/
def isOkE (x : DRes) : Bool :=
  match x with
  | .ok _ => true
  | _ => false

/-- No cell outside the designated price columns is exactly zero.  The
intra-row fallback of `fix_dataframe` can read any column of the row, so
zeros there can flow into price columns. -/
@[reducible] def NoZeroNonDesig (t : Table) : Prop :=
  ∀ i < t.rows.length, ∀ j < t.columns.length,
    ¬ isPrice (t.columns.getD j "") → cellIJ t i j ≠ some 0

/-- The fill value claimed by the spec for intra-row repair: the row's
`close` when present and valid, otherwise the first non-missing value
among the row's designated cells in column declaration order. -/
def specFillDeclOrder (columns : List String) (row : List Cell) : Cell :=
  match cellAt columns row "close" with
  | some v => some v
  | none => (rowDesig columns row).findSome? (fun v => v)

/-- Claim C1 as stated, at one table: every missing designated cell of a
partially-missing row (after zeros become missing) is filled with
`specFillDeclOrder` of that row. -/
@[reducible] def ClaimC1At (t : Table) : Prop :=
  ∀ i < t.rows.length,
    anyNoneDesig t.columns (pass1row t.columns (rowAt t i)) = true →
    allNoneDesig t.columns (pass1row t.columns (rowAt t i)) = false →
    ∀ j < t.columns.length, isPrice (t.columns.getD j "") →
      (pass1row t.columns (rowAt t i)).getD j none = none →
      cellIJ (fix_dataframe t) i j = specFillDeclOrder t.columns (pass1row t.columns (rowAt t i))

/-- Claim C2 as stated, at one table: after repair a designated column
holds no zero and no missing value, unless it was zero-or-missing in
every input row. -/
@[reducible] def ClaimC2At (t : Table) : Prop :=
  ∀ j < t.columns.length, isPrice (t.columns.getD j "") →
    (∃ i < t.rows.length, cellIJ t i j ≠ none ∧ cellIJ t i j ≠ some 0) →
    ∀ i < t.rows.length,
      cellIJ (fix_dataframe t) i j ≠ none ∧ cellIJ (fix_dataframe t) i j ≠ some 0

/-- Counterexample table for C1: one row
`{t: 1, open: 5, high: 0, low: 3, close: 0}`.  `close` is missing after
zero-normalization, and the fallback reads the whole row in ascending
label order (close, high, low, open, t), finding `low = 3` first — not
the spec's declaration-order pick `open = 5`. -/
def tblC1 : Table :=
  { columns := ["t", "open", "high", "low", "close"],
    rows := [[some 1, some 5, some 0, some 3, some 0]] }

/-- Counterexample table for C2: rows
`{close: 0, count: 0, high: 7}` and `{close: 10, count: 5, high: 11}`.
Row 0's fallback reads the non-designated `count = 0` (label order:
close, count, high), writing an exact zero back into `close` even though
the `close` column is not zero-or-missing in every row. -/
def tblC2 : Table :=
  { columns := ["close", "count", "high"],
    rows := [[some 0, some 0, some 7], [some 10, some 5, some 11]] }

/-- Counterexample table for C3: rows
`{close: 0, count: 0, high: 7}` and `{close: NaN, count: 9, high: NaN}`.
The first repair fills row 0's `close` with the non-designated zero and
gap-fills row 1 from it; the second repair re-normalizes that zero to
missing and this time fills row 1's `close` from `count = 9`. -/
def tblC3 : Table :=
  { columns := ["close", "count", "high"],
    rows := [[some 0, some 0, some 7], [none, some 9, none]] }

/-- Witness table with a three-row fully-missing gap in `close`, no zeros
outside designated columns. -/
def tblGap : Table :=
  { columns := ["timestamp", "close"],
    rows := [[some 1, some 5], [some 2, none], [some 3, none], [some 4, none],
      [some 5, some 9]] }

/-- Witness table for the round-trip claim: no zeros, no missing values. -/
def tblClean : Table :=
  { columns := ["timestamp", "open", "close"],
    rows := [[some 1, some 5, some 6], [some 2, some 7, some 8]] }

/-- Witness table for C2: `open` is zero in row 0 only, `close` missing in
row 1 only. -/
def tblW2 : Table :=
  { columns := ["timestamp", "open", "close"],
    rows := [[some 1, some 0, some 7], [some 2, some 5, none]] }

/-- Counterexample environment for C8: one expiration, one strike, and a
Greeks response whose single row carries an `underlying_price` key that is
NaN: the search commits to it and the empty aggregated frame is rejected
by the `UnderlyingData` constructor. -/
def envC8 : GreeksEnv :=
  { expirations := [1],
    strikes := fun _ => [100],
    greeks := fun _ _ _ => [.flat ⟨0, some none⟩] }

/-- Claim C8 as stated, at one environment: the no-expirations error
exactly on an empty expiration list, the derivation-failed error only
after an exhausted search, and a derived series in all other cases. -/
@[reducible] def ClaimC8At (env : GreeksEnv) : Prop :=
  (fetch_underlying_ohlc env = .noExpirations ↔ env.expirations = []) ∧
  (fetch_underlying_ohlc env = .derivationFailed →
    env.expirations ≠ [] ∧ searchExhausted env = true) ∧
  (env.expirations ≠ [] → searchExhausted env = false →
    isOkE (fetch_underlying_ohlc env) = true)

/-- Witness environment for C7 and C10: the first expiration has no
strikes and is skipped; the second has the five strikes of the spec
scenario, listed unsorted; only the Call at the midpoint strike 100
returns data (one valid row at millisecond 61000, price 50). -/
def envC7 : GreeksEnv :=
  { expirations := [10, 20],
    strikes := fun e => if e = 10 then [] else [95, 100, 90, 110, 105],
    greeks := fun e K r =>
      if e = 20 ∧ K = 100 ∧ r = OptRight.C then [.flat ⟨61000, some (some 50)⟩] else [] }

/-- Witness environment with no expirations at all. -/
def envEmpty : GreeksEnv :=
  { expirations := [], strikes := fun _ => [], greeks := fun _ _ _ => [] }

/-- Witness environment with one expiration but no strikes: the search is
exhausted without a usable attempt. -/
def envNoStrikes : GreeksEnv :=
  { expirations := [1], strikes := fun _ => [], greeks := fun _ _ _ => [] }

/-- The frame `fetch_underlying_ohlc envC7` derives: one 1-minute bucket. -/
def tblC7 : Table :=
  { columns := ["timestamp", "open", "high", "low", "close", "volume"],
    rows := [[some 1, some 50, some 50, some 50, some 50, some 1]] }

/-! ### Calendar lemmas -/

theorem nextVixGo_some_iff (avail : List ℤ) :
    ∀ (n : ℕ) (c e : ℤ), nextVixGo avail c n = some e ↔
      e ∈ avail ∧ c ≤ e ∧ e < c + n ∧ ∀ d, c ≤ d → d < e → d ∉ avail := by
  intro n
  induction n with
  | zero =>
    intro c e
    simp only [nextVixGo, Nat.cast_zero, add_zero]
    constructor
    · intro h; cases h
    · rintro ⟨-, h1, h2, -⟩; omega
  | succ n ih =>
    intro c e
    simp only [nextVixGo]
    by_cases hc : c ∈ avail
    · simp only [if_pos hc, Option.some_inj]
      constructor
      · rintro rfl
        exact ⟨hc, le_rfl, by push_cast; omega, fun d h1 h2 => absurd (h1.trans_lt h2) (lt_irrefl c)⟩
      · rintro ⟨he, h1, -, h3⟩
        by_contra hne
        exact h3 c le_rfl (lt_of_le_of_ne h1 hne) hc
    · rw [if_neg hc, ih (c + 1) e]
      constructor
      · rintro ⟨he, h1, h2, h3⟩
        refine ⟨he, by omega, by push_cast at h2 ⊢; omega, fun d hd1 hd2 => ?_⟩
        rcases eq_or_lt_of_le hd1 with rfl | hlt
        · exact hc
        · exact h3 d (by omega) hd2
      · rintro ⟨he, h1, h2, h3⟩
        have hce : c ≠ e := by rintro rfl; exact hc he
        exact ⟨he, by omega, by push_cast at h2 ⊢; omega, fun d hd1 hd2 => h3 d (by omega) hd2⟩

theorem nextVixGo_none_iff (avail : List ℤ) :
    ∀ (n : ℕ) (c : ℤ), nextVixGo avail c n = none ↔
      ∀ d, c ≤ d → d < c + n → d ∉ avail := by
  intro n
  induction n with
  | zero =>
    intro c
    simp only [nextVixGo, Nat.cast_zero, add_zero]
    constructor
    · intro _ d h1 h2 _
      omega
    · intro _
      trivial
  | succ n ih =>
    intro c
    simp only [nextVixGo]
    by_cases hc : c ∈ avail
    · simp only [if_pos hc]
      constructor
      · intro h; cases h
      · intro h; exact absurd hc (h c le_rfl (by push_cast; omega))
    · rw [if_neg hc, ih (c + 1)]
      constructor
      · intro h d hd1 hd2
        rcases eq_or_lt_of_le hd1 with rfl | hlt
        · exact hc
        · exact h d (by omega) (by push_cast at hd2 ⊢; omega)
      · intro h d hd1 hd2
        exact h d (by omega) (by push_cast at hd2 ⊢; omega)

theorem lastTradingGo_spec (closed : Finset ℤ) :
    ∀ (n : ℕ) (c w : ℤ), lastTradingGo closed c n = some w →
      weekday w < 5 ∧ w ∉ closed ∧ c - n < w ∧ w ≤ c ∧
        ∀ d, w < d → d ≤ c → (weekday d < 5 → d ∈ closed) := by
  intro n
  induction n with
  | zero => intro c w h; cases h
  | succ n ih =>
    intro c w
    simp only [lastTradingGo]
    by_cases hcond : weekday c < 5 ∧ c ∉ closed
    · rw [if_pos hcond]
      rintro ⟨rfl⟩
      exact ⟨hcond.1, hcond.2, by push_cast; omega, le_rfl,
        fun d h1 h2 _ => absurd (lt_of_lt_of_le h1 h2) (lt_irrefl _)⟩
    · rw [if_neg hcond]
      intro h
      obtain ⟨h1, h2, h3, h4, h5⟩ := ih (c - 1) w h
      refine ⟨h1, h2, by push_cast at h3 ⊢; omega, by omega, fun d hd1 hd2 hd3 => ?_⟩
      rcases eq_or_lt_of_le hd2 with rfl | hlt
      · by_contra hdc
        exact hcond ⟨hd3, hdc⟩
      · exact h5 d hd1 (by omega) hd3

theorem sortedDedup_sorted (l : List ℤ) : List.Sorted (· ≤ ·) (sortedDedup l) :=
  List.Pairwise.sublist (List.dedup_sublist _) (List.sorted_insertionSort _ l)

theorem sortedDedup_nodup (l : List ℤ) : (sortedDedup l).Nodup :=
  List.nodup_dedup _

theorem mem_sortedDedup {l : List ℤ} {x : ℤ} : x ∈ sortedDedup l ↔ x ∈ l := by
  rw [sortedDedup, List.mem_dedup, List.mem_insertionSort]

theorem sortedDedup_singleton (x : ℤ) : sortedDedup [x] = [x] := rfl

theorem sortedDedup_nil : sortedDedup [] = [] := rfl

end ThetaData

namespace ThetaData

theorem get_next_mem {current e : ℤ} {avail : List ℤ}
    (h : get_next_valid_vix_expiration current avail = some e) : e ∈ avail :=
  ((nextVixGo_some_iff avail 45 (current + 1) e).1 h).1

/-- C5: for every symbol, current date, available expirations and closed
dates, the selector result is sorted ascending, has no duplicates, and is
a subset of the available expirations. -/
theorem select_targets_sorted_nodup_subset (symbol : String) (current : ℤ)
    (available : List ℤ) (closed : Finset ℤ) :
    List.Sorted (· ≤ ·) (select_target_expirations symbol current available closed) ∧
      (select_target_expirations symbol current available closed).Nodup ∧
      ∀ x ∈ select_target_expirations symbol current available closed, x ∈ available := by
  refine ⟨sortedDedup_sorted _, sortedDedup_nodup _, fun x hx => ?_⟩
  unfold select_target_expirations at hx
  rw [mem_sortedDedup] at hx
  by_cases hs : symbol = "SPX" ∨ symbol = "SPXW" ∨ symbol = "SPY" ∨ symbol = "QQQ"
  · rw [if_pos hs] at hx
    rcases List.mem_append.1 hx with h | h
    · by_cases hc : current ∈ available
      · rw [if_pos hc] at h
        rcases List.mem_singleton.1 h with rfl
        exact hc
      · rw [if_neg hc] at h
        cases h
    · cases hw : last_trading_day_of_week current closed with
      | none => rw [hw] at h; cases h
      | some w =>
        rw [hw] at h
        dsimp only at h
        by_cases hcond : w ≠ current ∧ w ∈ available
        · rw [if_pos hcond] at h
          rcases List.mem_singleton.1 h with rfl
          exact hcond.2
        · rw [if_neg hcond] at h
          cases h
  · rw [if_neg hs] at hx
    by_cases hv : symbol = "VIX"
    · rw [if_pos hv] at hx
      by_cases hwd : weekday current = 0 ∨ weekday current = 1
      · rw [if_pos hwd] at hx
        by_cases hwed : wednesday_of_week current ∈ available ∧
            wednesday_of_week current ∉ closed
        · rw [if_pos hwed] at hx
          rcases List.mem_singleton.1 hx with rfl
          exact hwed.1
        · rw [if_neg hwed] at hx
          cases hn : get_next_valid_vix_expiration current available with
          | none => rw [hn] at hx; cases hx
          | some e =>
            rw [hn] at hx
            dsimp only at hx
            rcases List.mem_singleton.1 hx with rfl
            exact get_next_mem hn
      · rw [if_neg hwd] at hx
        cases hn : get_next_valid_vix_expiration current available with
        | none => rw [hn] at hx; cases hx
        | some e =>
          rw [hn] at hx
          dsimp only at hx
          rcases List.mem_singleton.1 hx with rfl
          exact get_next_mem hn
    · rw [if_neg hv] at hx
      cases hx

/-- C5 witness: the subset conjunct applied at a concrete input. -/
theorem select_targets_sorted_nodup_subset_witness : (0 : ℤ) ∈ ([0] : List ℤ) :=
  (select_targets_sorted_nodup_subset "SPX" 0 [0] ∅).2.2 0 (by decide)

end ThetaData

namespace ThetaData

/-- C4: for VIX, on a Monday or Tuesday the selector targets this week's
Wednesday exactly when it is available and not closed; otherwise it
targets the next available expiration strictly after the current date,
searched day-by-day from current+1 over a 45-day horizon, with no target
when the horizon is exhausted; and the result never contains the current
date. -/
theorem vix_selection (current : ℤ) (available : List ℤ) (closed : Finset ℤ) :
    ((weekday current = 0 ∨ weekday current = 1) →
      wednesday_of_week current ∈ available → wednesday_of_week current ∉ closed →
      select_target_expirations "VIX" current available closed =
        [wednesday_of_week current]) ∧
    (¬ ((weekday current = 0 ∨ weekday current = 1) ∧
        wednesday_of_week current ∈ available ∧ wednesday_of_week current ∉ closed) →
      (∃ e, e ∈ available ∧ current < e ∧ e ≤ current + 45 ∧
        (∀ d, current < d → d < e → d ∉ available) ∧
        select_target_expirations "VIX" current available closed = [e]) ∨
      ((∀ d, current < d → d ≤ current + 45 → d ∉ available) ∧
        select_target_expirations "VIX" current available closed = [])) ∧
    current ∉ select_target_expirations "VIX" current available closed := by
  have hno : ¬ ("VIX" = "SPX" ∨ "VIX" = "SPXW" ∨ "VIX" = "SPY" ∨ "VIX" = "QQQ") := by decide
  have hbase : ∀ l : List ℤ,
      (if "VIX" = "SPX" ∨ "VIX" = "SPXW" ∨ "VIX" = "SPY" ∨ "VIX" = "QQQ" then l
        else if "VIX" = "VIX" then l ++ [] else l ++ [1]) = l := by
    intro l
    rw [if_neg hno, if_pos rfl, List.append_nil]
  clear hbase
  have hsel : select_target_expirations "VIX" current available closed =
      sortedDedup (
        if weekday current = 0 ∨ weekday current = 1 then
          if wednesday_of_week current ∈ available ∧ wednesday_of_week current ∉ closed then
            [wednesday_of_week current]
          else
            match get_next_valid_vix_expiration current available with
            | some e => [e]
            | none => []
        else
          match get_next_valid_vix_expiration current available with
          | some e => [e]
          | none => []) := by
    simp only [select_target_expirations]
    rw [if_neg hno, if_pos trivial]
  refine ⟨?_, ?_, ?_⟩
  · intro hwd hmem hncl
    rw [hsel, if_pos hwd, if_pos ⟨hmem, hncl⟩]
    exact sortedDedup_singleton _
  · intro hnot
    rw [hsel]
    by_cases hwd : weekday current = 0 ∨ weekday current = 1
    · have hwed : ¬ (wednesday_of_week current ∈ available ∧
          wednesday_of_week current ∉ closed) := fun hc => hnot ⟨hwd, hc⟩
      rw [if_pos hwd, if_neg hwed]
      cases hn : get_next_valid_vix_expiration current available with
      | none =>
        right
        refine ⟨fun d h1 h2 => ?_, sortedDedup_nil⟩
        have := (nextVixGo_none_iff available 45 (current + 1)).1 hn
        exact this d (by omega) (by push_cast; omega)
      | some e =>
        left
        obtain ⟨he, h1, h2, h3⟩ := (nextVixGo_some_iff available 45 (current + 1) e).1 hn
        exact ⟨e, he, by omega, by push_cast at h2; omega,
          fun d hd1 hd2 => h3 d (by omega) hd2, sortedDedup_singleton _⟩
    · rw [if_neg hwd]
      cases hn : get_next_valid_vix_expiration current available with
      | none =>
        right
        refine ⟨fun d h1 h2 => ?_, sortedDedup_nil⟩
        have := (nextVixGo_none_iff available 45 (current + 1)).1 hn
        exact this d (by omega) (by push_cast; omega)
      | some e =>
        left
        obtain ⟨he, h1, h2, h3⟩ := (nextVixGo_some_iff available 45 (current + 1) e).1 hn
        exact ⟨e, he, by omega, by push_cast at h2; omega,
          fun d hd1 hd2 => h3 d (by omega) hd2, sortedDedup_singleton _⟩
  · intro hmem
    rw [hsel, mem_sortedDedup] at hmem
    by_cases hwd : weekday current = 0 ∨ weekday current = 1
    · rw [if_pos hwd] at hmem
      by_cases hwed : wednesday_of_week current ∈ available ∧
          wednesday_of_week current ∉ closed
      · rw [if_pos hwed] at hmem
        rcases List.mem_singleton.1 hmem with h
        unfold wednesday_of_week weekday at h
        unfold weekday at hwd
        omega
      · rw [if_neg hwed] at hmem
        cases hn : get_next_valid_vix_expiration current available with
        | none => rw [hn] at hmem; cases hmem
        | some e =>
          rw [hn] at hmem
          dsimp only at hmem
          rcases List.mem_singleton.1 hmem with h
          obtain ⟨-, h1, -, -⟩ := (nextVixGo_some_iff available 45 (current + 1) e).1 hn
          omega
    · rw [if_neg hwd] at hmem
      cases hn : get_next_valid_vix_expiration current available with
      | none => rw [hn] at hmem; cases hmem
      | some e =>
        rw [hn] at hmem
        dsimp only at hmem
        rcases List.mem_singleton.1 hmem with h
        obtain ⟨-, h1, -, -⟩ := (nextVixGo_some_iff available 45 (current + 1) e).1 hn
        omega

/-- C4 witness: Monday day 0, its Wednesday (day 2) available and open. -/
theorem vix_selection_witness :
    select_target_expirations "VIX" 0 [2] ∅ = [wednesday_of_week 0] :=
  (vix_selection 0 [2] ∅).1 (Or.inl (by decide)) (by decide) (by decide)

end ThetaData

namespace ThetaData

/-- C6: for the same-day-plus-weekly class (SPX, SPXW, SPY, QQQ), the
current date is targeted whenever it is an available expiration, and the
last valid trading day of the current week — the latest day not in
closedDates found scanning back from the week's Friday through Monday —
is targeted whenever it exists, is available, and differs from the
current date. -/
theorem sameday_weekly_selection (symbol : String) (current : ℤ)
    (available : List ℤ) (closed : Finset ℤ)
    (hs : symbol = "SPX" ∨ symbol = "SPXW" ∨ symbol = "SPY" ∨ symbol = "QQQ") :
    (current ∈ available →
      current ∈ select_target_expirations symbol current available closed) ∧
    (∀ w, last_trading_day_of_week current closed = some w → w ∈ available →
      w ≠ current → w ∈ select_target_expirations symbol current available closed) ∧
    (∀ w, last_trading_day_of_week current closed = some w →
      weekday w < 5 ∧ w ∉ closed ∧
        current + (4 - weekday current) - 4 ≤ w ∧ w ≤ current + (4 - weekday current) ∧
        ∀ d, w < d → d ≤ current + (4 - weekday current) → d ∈ closed) := by
  have hsel : select_target_expirations symbol current available closed =
      sortedDedup ((if current ∈ available then [current] else []) ++
        (match last_trading_day_of_week current closed with
          | some w => if w ≠ current ∧ w ∈ available then [w] else []
          | none => [])) := by
    simp only [select_target_expirations]
    rw [if_pos hs]
  refine ⟨?_, ?_, ?_⟩
  · intro hc
    rw [hsel, mem_sortedDedup]
    exact List.mem_append.2 (Or.inl (by rw [if_pos hc]; exact List.mem_singleton.2 rfl))
  · intro w hw hmem hne
    rw [hsel, mem_sortedDedup]
    refine List.mem_append.2 (Or.inr ?_)
    rw [hw]
    dsimp only
    rw [if_pos ⟨hne, hmem⟩]
    exact List.mem_singleton.2 rfl
  · intro w hw
    obtain ⟨h1, h2, h3, h4, h5⟩ := lastTradingGo_spec closed 5 (current + (4 - weekday current)) w hw
    have hf : (current + (4 - weekday current)) % 7 = 4 := by
      unfold weekday
      omega
    refine ⟨h1, h2, by push_cast at h3; omega, h4, fun d hd1 hd2 => ?_⟩
    refine h5 d hd1 hd2 ?_
    unfold weekday
    unfold weekday at h1
    push_cast at h3
    omega

/-- C6 witness: Monday day 0 is available; the week's Friday day 4 is
open, available and distinct, so both are targeted; the scan facts hold. -/
theorem sameday_weekly_selection_witness :
    (0 : ℤ) ∈ select_target_expirations "SPX" 0 [0, 4] ∅ ∧
      (4 : ℤ) ∈ select_target_expirations "SPX" 0 [0, 4] ∅ := by
  have h := sameday_weekly_selection "SPX" 0 [0, 4] ∅ (Or.inl rfl)
  exact ⟨h.1 (by decide), h.2.1 4 (by decide) (by decide) (by decide)⟩

end ThetaData

namespace ThetaData

/-! ### Corrector: basic lemmas -/

theorem idxOf?_some {c : String} :
    ∀ {cs : List String} {i : ℕ}, idxOf? c cs = some i → cs[i]? = some c := by
  intro cs
  induction cs with
  | nil => intro i h; cases h
  | cons x xs ih =>
    intro i h
    by_cases hx : x = c
    · rw [idxOf?, if_pos hx] at h
      cases h
      simpa using hx
    · rw [idxOf?, if_neg hx] at h
      rcases Option.map_eq_some'.1 h with ⟨i', hi', rfl⟩
      simpa using ih hi'

theorem idxOf?_isSome {c : String} :
    ∀ {cs : List String}, c ∈ cs → (idxOf? c cs).isSome := by
  intro cs
  induction cs with
  | nil => intro h; cases h
  | cons x xs ih =>
    intro h
    by_cases hx : x = c
    · rw [idxOf?, if_pos hx]; rfl
    · rw [idxOf?, if_neg hx]
      rcases List.mem_cons.1 h with rfl | hmem
      · exact absurd rfl hx
      · rcases Option.isSome_iff_exists.1 (ih hmem) with ⟨i, hi⟩
        rw [hi]
        rfl

theorem idxOf?_self_of_nodup :
    ∀ {cs : List String}, cs.Nodup → ∀ {j : ℕ}, j < cs.length →
      idxOf? (cs.getD j "") cs = some j := by
  intro cs
  induction cs with
  | nil => intro _ j h; cases h
  | cons x xs ih =>
    intro hnd j hj
    rcases List.nodup_cons.1 hnd with ⟨hx, hnd'⟩
    cases j with
    | zero => rw [List.getD_cons_zero, idxOf?, if_pos rfl]
    | succ j =>
      rw [List.getD_cons_succ, idxOf?]
      have hjlen : j < xs.length := by simpa using Nat.lt_of_succ_lt_succ hj
      have hmem : xs.getD j "" ∈ xs := by
        rw [List.getD_eq_getElem?_getD, List.getElem?_eq_getElem hjlen]
        exact List.getElem_mem hjlen
      rw [if_neg (fun heq => hx (by rw [heq]; exact hmem)), ih hnd' hjlen]
      rfl

theorem cellAt_of_nodup {cs : List String} {r : List Cell} (hnd : cs.Nodup)
    {j : ℕ} (hj : j < cs.length) :
    cellAt cs r (cs.getD j "") = r.getD j none := by
  rw [cellAt, idxOf?_self_of_nodup hnd hj]
  dsimp only
  rw [List.get?_eq_getElem?, List.getD_eq_getElem?_getD]

theorem cellAt_mem {cs : List String} {r : List Cell} {c : String} {v : ℤ}
    (h : cellAt cs r c = some v) : some v ∈ r := by
  rw [cellAt] at h
  cases hidx : idxOf? c cs with
  | none => rw [hidx] at h; cases h
  | some i =>
    rw [hidx] at h
    dsimp only at h
    cases hr : r.get? i with
    | none => rw [hr] at h; cases h
    | some cell =>
      rw [hr] at h
      cases h
      rw [List.get?_eq_getElem?] at hr
      rcases List.getElem?_eq_some_iff.1 hr with ⟨hlt, hcell⟩
      exact hcell ▸ List.getElem_mem hlt

theorem mem_fallbackOrder {cs : List String} {c : String} :
    c ∈ fallbackOrder cs ↔ c ∈ cs := by
  rw [fallbackOrder]
  by_cases h : cs = desigCols cs
  · rw [if_pos h]
  · rw [if_neg h, sortCols, List.mem_insertionSort]

theorem isPrice_of_mem_desig {cs : List String} {c : String}
    (h : c ∈ desigCols cs) : isPrice c = true := by
  rw [desigCols, List.mem_filter] at h
  rw [isPrice]
  exact List.elem_eq_true_of_mem h.1

theorem mem_of_mem_desig {cs : List String} {c : String}
    (h : c ∈ desigCols cs) : c ∈ cs := by
  rw [desigCols, List.mem_filter] at h
  simpa using h.2

theorem validVal_mem {cs : List String} {r : List Cell} {v : ℤ}
    (h : validVal cs r = some v) : some v ∈ r := by
  rw [validVal] at h
  cases hc : cellAt cs r "close" with
  | some w =>
    rw [hc] at h
    cases h
    exact cellAt_mem hc
  | none =>
    rw [hc] at h
    rw [fallbackVal] at h
    rcases List.findSome?_eq_some_iff.1 h with ⟨l₁, a, l₂, hsplit, ha, -⟩
    have hmem : a ∈ (fallbackOrder cs).map (cellAt cs r) := by
      rw [hsplit]
      exact List.mem_append.2 (Or.inr (List.mem_cons_self _ _))
    rcases List.mem_map.1 hmem with ⟨c, -, hcell⟩
    cases ha
    exact cellAt_mem hcell

theorem validVal_isSome {cs : List String} {r : List Cell}
    (h : ∃ c ∈ desigCols cs, (cellAt cs r c).isSome) : (validVal cs r).isSome := by
  rw [validVal]
  cases hc : cellAt cs r "close" with
  | some w => rfl
  | none =>
    rcases h with ⟨c, hcd, hcs⟩
    rw [fallbackVal]
    cases hf : List.findSome? (fun v => v) ((fallbackOrder cs).map (cellAt cs r)) with
    | some w => rfl
    | none =>
      exfalso
      have := List.findSome?_eq_none_iff.1 hf (cellAt cs r c)
        (List.mem_map.2 ⟨c, mem_fallbackOrder.2 (mem_of_mem_desig hcd), rfl⟩)
      rw [this] at hcs
      cases hcs

end ThetaData

namespace ThetaData

/-! ### Corrector: pass 1 and pass 2 row lemmas -/

theorem zipWith_getD {f : String → Cell → Cell} {cs : List String} {r : List Cell}
    {j : ℕ} (hj : j < cs.length) (hr : r.length = cs.length) :
    (List.zipWith f cs r).getD j none = f (cs.getD j "") (r.getD j none) := by
  have hjr : j < r.length := hr ▸ hj
  rw [List.getD_eq_getElem?_getD, List.getElem?_zipWith,
    List.getElem?_eq_getElem hj, List.getElem?_eq_getElem hjr,
    List.getD_eq_getElem?_getD, List.getD_eq_getElem?_getD,
    List.getElem?_eq_getElem hj, List.getElem?_eq_getElem hjr]
  rfl

theorem zipWith_length {f : String → Cell → Cell} {cs : List String} {r : List Cell}
    (hr : r.length = cs.length) : (List.zipWith f cs r).length = cs.length := by
  rw [List.length_zipWith, hr, min_self]

theorem pass1row_length {cs : List String} {r : List Cell} (hr : r.length = cs.length) :
    (pass1row cs r).length = cs.length := zipWith_length hr

theorem pass1row_getD {cs : List String} {r : List Cell} {j : ℕ}
    (hj : j < cs.length) (hr : r.length = cs.length) :
    (pass1row cs r).getD j none =
      if isPrice (cs.getD j "") ∧ r.getD j none = some 0 then none else r.getD j none :=
  zipWith_getD hj hr

theorem pass2row_length {cs : List String} {r : List Cell} (hr : r.length = cs.length) :
    (pass2row cs r).length = cs.length := by
  rw [pass2row]
  by_cases h : anyNoneDesig cs r = true ∧ ¬ allNoneDesig cs r = true
  · rw [if_pos h]
    exact zipWith_length hr
  · rw [if_neg h]
    exact hr

theorem pass2row_getD_of_cond {cs : List String} {r : List Cell} {j : ℕ}
    (hcond : anyNoneDesig cs r = true ∧ ¬ allNoneDesig cs r = true)
    (hj : j < cs.length) (hr : r.length = cs.length) :
    (pass2row cs r).getD j none =
      if isPrice (cs.getD j "") ∧ r.getD j none = none then validVal cs r
      else r.getD j none := by
  rw [pass2row, if_pos hcond]
  exact zipWith_getD hj hr

theorem pass2row_of_not_cond {cs : List String} {r : List Cell}
    (hcond : ¬ (anyNoneDesig cs r = true ∧ ¬ allNoneDesig cs r = true)) :
    pass2row cs r = r := by
  rw [pass2row, if_neg hcond]

theorem anyNoneDesig_iff {cs : List String} {r : List Cell} :
    anyNoneDesig cs r = true ↔ ∃ c ∈ desigCols cs, cellAt cs r c = none := by
  rw [anyNoneDesig, List.any_eq_true]
  constructor
  · rintro ⟨v, hv, hnone⟩
    rcases List.mem_map.1 hv with ⟨c, hc, rfl⟩
    exact ⟨c, hc, Option.isNone_iff_eq_none.1 hnone⟩
  · rintro ⟨c, hc, hnone⟩
    exact ⟨cellAt cs r c, List.mem_map.2 ⟨c, hc, rfl⟩, by rw [hnone]; rfl⟩

theorem allNoneDesig_iff {cs : List String} {r : List Cell} :
    allNoneDesig cs r = true ↔ ∀ c ∈ desigCols cs, cellAt cs r c = none := by
  rw [allNoneDesig, List.all_eq_true]
  constructor
  · intro h c hc
    exact Option.isNone_iff_eq_none.1 (h _ (List.mem_map.2 ⟨c, hc, rfl⟩))
  · rintro h v hv
    rcases List.mem_map.1 hv with ⟨c, hc, rfl⟩
    rw [h c hc]
    rfl

theorem not_allNoneDesig_iff {cs : List String} {r : List Cell} :
    allNoneDesig cs r = false ↔ ∃ c ∈ desigCols cs, (cellAt cs r c).isSome := by
  rw [← Bool.not_eq_true, allNoneDesig_iff]
  push_neg
  constructor
  · rintro ⟨c, hc, hne⟩
    exact ⟨c, hc, Option.isSome_iff_exists.2 (Option.ne_none_iff_exists'.1 hne)⟩
  · rintro ⟨c, hc, hs⟩
    exact ⟨c, hc, fun h => by rw [h] at hs; cases hs⟩

theorem pass2row_all_ne_zero {cs : List String} {r : List Cell}
    (hr : r.length = cs.length) (hnz : ∀ x ∈ r, x ≠ some 0) :
    ∀ x ∈ pass2row cs r, x ≠ some 0 := by
  intro x hx
  rw [pass2row] at hx
  by_cases h : anyNoneDesig cs r = true ∧ ¬ allNoneDesig cs r = true
  · rw [if_pos h] at hx
    rcases List.mem_iff_getElem.1 hx with ⟨j, hjlt, hcell⟩
    have hjcs : j < cs.length := by
      have := hjlt
      rwa [zipWith_length hr] at this
    have := zipWith_getD (f := fun c v =>
      if isPrice c ∧ v = none then validVal cs r else v) hjcs hr
    rw [List.getD_eq_getElem?_getD, List.getElem?_eq_getElem hjlt, hcell] at this
    dsimp at this
    by_cases hc : isPrice (cs.getD j "") ∧ r.getD j none = none
    · rw [if_pos hc] at this
      intro h0
      rw [h0] at this
      exact hnz _ (validVal_mem this.symm) rfl
    · rw [if_neg hc] at this
      intro h0
      rw [h0] at this
      have hmem : (some 0 : Cell) ∈ r := by
        have hjr : j < r.length := hr ▸ hjcs
        rw [List.getD_eq_getElem?_getD, List.getElem?_eq_getElem hjr] at this
        exact this.symm ▸ List.getElem_mem hjr
      exact hnz _ hmem rfl
  · rw [if_neg h] at hx
    exact hnz x hx

end ThetaData

namespace ThetaData

/-! ### Corrector: zero facts for pass 1 -/

theorem pass1row_all_ne_zero {cs : List String} {r : List Cell}
    (hr : r.length = cs.length)
    (hnz : ∀ j < cs.length, ¬ isPrice (cs.getD j "") = true → r.getD j none ≠ some 0) :
    ∀ x ∈ pass1row cs r, x ≠ some 0 := by
  intro x hx
  rcases List.mem_iff_getElem.1 hx with ⟨j, hjlt, hcell⟩
  have hjcs : j < cs.length := by
    have := hjlt
    rwa [pass1row_length hr] at this
  have hform := pass1row_getD hjcs hr
  rw [List.getD_eq_getElem?_getD, List.getElem?_eq_getElem hjlt, hcell] at hform
  dsimp at hform
  by_cases hc : isPrice (cs.getD j "") ∧ r.getD j none = some 0
  · rw [if_pos hc] at hform
    rw [hform]
    intro h; cases h
  · rw [if_neg hc] at hform
    rw [hform]
    by_cases hp : isPrice (cs.getD j "") = true
    · intro h0
      exact hc ⟨hp, h0⟩
    · exact hnz j hjcs hp

theorem pass1row_nondesig {cs : List String} {r : List Cell} {j : ℕ}
    (hj : j < cs.length) (hr : r.length = cs.length)
    (hp : ¬ isPrice (cs.getD j "") = true) :
    (pass1row cs r).getD j none = r.getD j none := by
  rw [pass1row_getD hj hr, if_neg (fun hc => hp hc.1)]

theorem pass2row_nondesig {cs : List String} {r : List Cell} {j : ℕ}
    (hj : j < cs.length) (hr : r.length = cs.length)
    (hp : ¬ isPrice (cs.getD j "") = true) :
    (pass2row cs r).getD j none = r.getD j none := by
  rw [pass2row]
  by_cases h : anyNoneDesig cs r = true ∧ ¬ allNoneDesig cs r = true
  · rw [if_pos h, zipWith_getD hj hr, if_neg (fun hc => hp hc.1)]
  · rw [if_neg h]

/-! ### Corrector: bfill and ffill on one column -/

theorem firstSome_mem {l : List Cell} {v : ℤ} (h : firstSome l = some v) :
    some v ∈ l := by
  rcases List.findSome?_eq_some_iff.1 h with ⟨l₁, a, l₂, hsplit, ha, -⟩
  cases ha
  rw [hsplit]
  exact List.mem_append.2 (Or.inr (List.mem_cons_self _ _))

theorem firstSome_isSome {l : List Cell} (h : ∃ x ∈ l, x.isSome) :
    (firstSome l).isSome := by
  cases hf : firstSome l with
  | some v => rfl
  | none =>
    exfalso
    rcases h with ⟨x, hx, hs⟩
    have := List.findSome?_eq_none_iff.1 hf x hx
    rw [this] at hs
    cases hs

theorem bfill_length : ∀ l : List Cell, (bfill l).length = l.length := by
  intro l
  induction l with
  | nil => rfl
  | cons v rest ih => simp [bfill, ih]

theorem ffillGo_length : ∀ (p : Cell) (l : List Cell), (ffillGo p l).length = l.length := by
  intro p l
  induction l generalizing p with
  | nil => rfl
  | cons v rest ih => simp [ffillGo, ih]

theorem bfillffill_length (l : List Cell) : (bfillffill l).length = l.length := by
  rw [bfillffill, ffillGo_length, bfill_length]

theorem bfill_getD_some : ∀ {l : List Cell} {i : ℕ} {v : ℤ},
    l.getD i none = some v → (bfill l).getD i none = some v := by
  intro l
  induction l with
  | nil => intro i v h; simp [List.getD] at h
  | cons x rest ih =>
    intro i v h
    cases i with
    | zero =>
      rw [List.getD_cons_zero] at h
      rw [bfill, List.getD_cons_zero, h]
      rfl
    | succ i =>
      rw [List.getD_cons_succ] at h
      rw [bfill, List.getD_cons_succ]
      exact ih h

theorem ffillGo_getD_some : ∀ {l : List Cell} (p : Cell) {i : ℕ} {v : ℤ},
    l.getD i none = some v → (ffillGo p l).getD i none = some v := by
  intro l
  induction l with
  | nil => intro p i v h; simp [List.getD] at h
  | cons x rest ih =>
    intro p i v h
    cases i with
    | zero =>
      rw [List.getD_cons_zero] at h
      rw [ffillGo, List.getD_cons_zero, h]
      rfl
    | succ i =>
      rw [List.getD_cons_succ] at h
      rw [ffillGo, List.getD_cons_succ]
      exact ih _ h

theorem bfillffill_getD_some {l : List Cell} {i : ℕ} {v : ℤ}
    (h : l.getD i none = some v) : (bfillffill l).getD i none = some v :=
  ffillGo_getD_some none (bfill_getD_some h)

theorem bfill_mem_of_isSome : ∀ {l : List Cell} {y : Cell},
    y ∈ bfill l → y.isSome → y ∈ l := by
  intro l
  induction l with
  | nil => intro y h; cases h
  | cons x rest ih =>
    intro y hy hs
    rw [bfill] at hy
    rcases List.mem_cons.1 hy with rfl | hmem
    · by_cases hx : x.isSome
      · rw [if_pos hx]
        rw [if_pos hx] at hs
        exact List.mem_cons_self _ _
      · rw [if_neg hx]
        rw [if_neg hx] at hs
        rcases Option.isSome_iff_exists.1 hs with ⟨v, hv⟩
        exact List.mem_cons.2 (Or.inr (hv ▸ firstSome_mem hv))
    · exact List.mem_cons.2 (Or.inr (ih hmem hs))

theorem ffillGo_mem_of_isSome : ∀ {l : List Cell} {p y : Cell},
    y ∈ ffillGo p l → y.isSome → y ∈ l ∨ y = p := by
  intro l
  induction l with
  | nil => intro p y h; cases h
  | cons x rest ih =>
    intro p y hy hs
    rw [ffillGo] at hy
    rcases List.mem_cons.1 hy with rfl | hmem
    · by_cases hx : x.isSome
      · rw [if_pos hx]
        left
        exact List.mem_cons_self _ _
      · rw [if_neg hx]
        right
        rfl
    · rcases ih hmem hs with hin | heq
      · exact Or.inl (List.mem_cons.2 (Or.inr hin))
      · by_cases hx : x.isSome
        · rw [if_pos hx] at heq
          exact Or.inl (heq ▸ List.mem_cons_self _ _)
        · rw [if_neg hx] at heq
          exact Or.inr heq

theorem bfillffill_mem_of_isSome {l : List Cell} {y : Cell}
    (hy : y ∈ bfillffill l) (hs : y.isSome) : y ∈ l := by
  rcases ffillGo_mem_of_isSome hy hs with hin | rfl
  · exact bfill_mem_of_isSome hin hs
  · cases hs

theorem ffillGo_all_isSome : ∀ {l : List Cell} {p : Cell}, p.isSome →
    ∀ y ∈ ffillGo p l, y.isSome := by
  intro l
  induction l with
  | nil => intro p _ y h; cases h
  | cons x rest ih =>
    intro p hp y hy
    rw [ffillGo] at hy
    by_cases hx : x.isSome
    · rw [if_pos hx] at hy
      rcases List.mem_cons.1 hy with rfl | hmem
      · exact hx
      · exact ih hx _ hmem
    · rw [if_neg hx] at hy
      rcases List.mem_cons.1 hy with rfl | hmem
      · exact hp
      · exact ih hp _ hmem

theorem bfillffill_all_isSome : ∀ {l : List Cell},
    (∃ x ∈ l, x.isSome) → ∀ y ∈ bfillffill l, y.isSome := by
  intro l
  cases l with
  | nil => rintro ⟨x, hx, -⟩; cases hx
  | cons x rest =>
    rintro hex y hy
    rw [bfillffill, bfill] at hy
    by_cases hx : x.isSome
    · rw [if_pos hx] at hy
      rw [ffillGo] at hy
      rw [if_pos hx] at hy
      rcases List.mem_cons.1 hy with rfl | hmem
      · exact hx
      · exact ffillGo_all_isSome hx _ hmem
    · rw [if_neg hx] at hy
      have hrest : ∃ z ∈ rest, z.isSome := by
        rcases hex with ⟨z, hz, hs⟩
        rcases List.mem_cons.1 hz with rfl | hmem
        · exact absurd hs hx
        · exact ⟨z, hmem, hs⟩
      have hfs : (firstSome rest).isSome := firstSome_isSome hrest
      rw [ffillGo, if_pos hfs] at hy
      rcases List.mem_cons.1 hy with rfl | hmem
      · exact hfs
      · exact ffillGo_all_isSome hfs _ hmem

theorem bfill_all_none : ∀ {l : List Cell}, (∀ x ∈ l, x = none) → bfill l = l := by
  intro l
  induction l with
  | nil => intro _; rfl
  | cons x rest ih =>
    intro h
    have hx : x = none := h x (List.mem_cons_self _ _)
    have hr : ∀ x ∈ rest, x = none := fun z hz => h z (List.mem_cons.2 (Or.inr hz))
    rw [bfill, ih hr]
    subst hx
    rw [if_neg (by intro h'; cases h')]
    congr 1
    cases hf : firstSome rest with
    | none => rfl
    | some v =>
      exfalso
      have := hr _ (firstSome_mem hf)
      cases this
  
theorem ffillGo_none_all_none : ∀ {l : List Cell}, (∀ x ∈ l, x = none) →
    ffillGo none l = l := by
  intro l
  induction l with
  | nil => intro _; rfl
  | cons x rest ih =>
    intro h
    have hx : x = none := h x (List.mem_cons_self _ _)
    have hr : ∀ x ∈ rest, x = none := fun z hz => h z (List.mem_cons.2 (Or.inr hz))
    subst hx
    rw [ffillGo, if_neg (by intro h'; cases h'), ih hr]

theorem bfillffill_all_none {l : List Cell} (h : ∀ x ∈ l, x = none) :
    bfillffill l = l := by
  rw [bfillffill, bfill_all_none h, ffillGo_none_all_none h]

theorem bfill_all_isSome : ∀ {l : List Cell}, (∀ x ∈ l, x.isSome) → bfill l = l := by
  intro l
  induction l with
  | nil => intro _; rfl
  | cons x rest ih =>
    intro h
    rw [bfill, if_pos (h x (List.mem_cons_self _ _)),
      ih (fun z hz => h z (List.mem_cons.2 (Or.inr hz)))]

theorem ffillGo_all_isSome_id : ∀ {l : List Cell} (p : Cell),
    (∀ x ∈ l, x.isSome) → ffillGo p l = l := by
  intro l
  induction l with
  | nil => intro p _; rfl
  | cons x rest ih =>
    intro p h
    rw [ffillGo, if_pos (h x (List.mem_cons_self _ _)),
      ih _ (fun z hz => h z (List.mem_cons.2 (Or.inr hz)))]

theorem bfillffill_all_isSome_id {l : List Cell} (h : ∀ x ∈ l, x.isSome) :
    bfillffill l = l := by
  rw [bfillffill, bfill_all_isSome h, ffillGo_all_isSome_id _ h]

end ThetaData

namespace ThetaData

/-! ### Corrector: pass 3 lemmas -/

theorem cellIJ_eq (t : Table) (i j : ℕ) : cellIJ t i j = (rowAt t i).getD j none := by
  rw [cellIJ, rowAt, List.getD_eq_getElem?_getD, List.get?_eq_getElem?]

theorem colJ_getD_eq {rows : List (List Cell)} {i : ℕ} (j : ℕ) (hi : i < rows.length) :
    (colJ rows j).getD i none = (rows.getD i []).getD j none := by
  simp only [colJ, List.getD_eq_getElem?_getD, List.getElem?_map,
    List.getElem?_eq_getElem hi, Option.map_some', Option.getD_some,
    List.get?_eq_getElem?]

theorem colJ_length (rows : List (List Cell)) (j : ℕ) :
    (colJ rows j).length = rows.length := List.length_map _ _

theorem colJ_mem {rows : List (List Cell)} {j : ℕ} {y : Cell} (hy : y ∈ colJ rows j) :
    ∃ r ∈ rows, (r.get? j).getD none = y := by
  rcases List.mem_map.1 hy with ⟨r, hr, hform⟩
  exact ⟨r, hr, hform⟩

theorem pass3rows_length (cs : List String) (rows : List (List Cell)) :
    (pass3rows cs rows).length = rows.length := by
  rw [pass3rows, List.length_map, List.length_range]

theorem pass3rows_rowlength {cs : List String} {rows : List (List Cell)} :
    ∀ r ∈ pass3rows cs rows, r.length = cs.length := by
  intro r hr
  rw [pass3rows] at hr
  rcases List.mem_map.1 hr with ⟨i, -, hform⟩
  rw [← hform, List.length_map, List.length_map, List.length_range]

theorem pass3rows_getD {cs : List String} {rows : List (List Cell)} {i j : ℕ}
    (hi : i < rows.length) (hj : j < cs.length) :
    ((pass3rows cs rows).getD i []).getD j none =
      if isPrice (cs.getD j "") then (bfillffill (colJ rows j)).getD i none
      else (colJ rows j).getD i none := by
  simp only [pass3rows, colJ, List.getD_eq_getElem?_getD, List.getElem?_map,
    List.getElem?_range hi, List.getElem?_range hj, Option.map_some',
    Option.getD_some, List.get?_eq_getElem?]
  split
  · rfl
  · rw [List.getElem?_map]

/-! ### Corrector: the pass 2 dichotomy -/

theorem pass2row_dichotomy {cs : List String} {r : List Cell}
    (hr : r.length = cs.length) :
    (allNoneDesig cs (pass2row cs r) = true ∧ allNoneDesig cs r = true) ∨
      anyNoneDesig cs (pass2row cs r) = false := by
  by_cases hcond : anyNoneDesig cs r = true ∧ ¬ allNoneDesig cs r = true
  · right
    cases hany : anyNoneDesig cs (pass2row cs r) with
    | false => rfl
    | true =>
      exfalso
      rcases anyNoneDesig_iff.1 hany with ⟨c, hcd, hcell⟩
      have hccs : c ∈ cs := mem_of_mem_desig hcd
      rcases Option.isSome_iff_exists.1 (idxOf?_isSome hccs) with ⟨i, hidx⟩
      have hcsi : cs[i]? = some c := idxOf?_some hidx
      rcases List.getElem?_eq_some_iff.1 hcsi with ⟨hilt, hci⟩
      have hgetD : cs.getD i "" = c := by
        rw [List.getD_eq_getElem?_getD, List.getElem?_eq_getElem hilt, hci]
        rfl
      have hcell2 : cellAt cs (pass2row cs r) c = (pass2row cs r).getD i none := by
        rw [cellAt, hidx]
        dsimp only
        rw [List.get?_eq_getElem?, List.getD_eq_getElem?_getD]
      rw [hcell2, pass2row_getD_of_cond hcond hilt hr, hgetD] at hcell
      by_cases hfil : isPrice c = true ∧ r.getD i none = none
      · rw [if_pos hfil] at hcell
        have hvs : (validVal cs r).isSome := by
          apply validVal_isSome
          rcases not_allNoneDesig_iff.1 (Bool.not_eq_true _ ▸ hcond.2) with ⟨c', hc', hs'⟩
          exact ⟨c', hc', hs'⟩
        rw [hcell] at hvs
        cases hvs
      · rw [if_neg hfil] at hcell
        have hip : isPrice c = true := isPrice_of_mem_desig hcd
        have : r.getD i none ≠ none := fun hn => hfil ⟨hip, hn⟩
        exact this hcell
  · rw [pass2row_of_not_cond hcond]
    by_cases hall : allNoneDesig cs r = true
    · exact Or.inl ⟨hall, hall⟩
    · right
      cases hany : anyNoneDesig cs r with
      | false => rfl
      | true => exact absurd ⟨hany, hall⟩ hcond

end ThetaData

namespace ThetaData

/-! ### Corrector: the shape of `fix_dataframe` -/

theorem getElem?_eq_some_getD {l : List Cell} {j : ℕ} (hj : j < l.length) :
    l[j]? = some (l.getD j none) := by
  rw [List.getD_eq_getElem?_getD, List.getElem?_eq_getElem hj]
  rfl

theorem rows_getElem?_eq_some_getD {rows : List (List Cell)} {i : ℕ}
    (hi : i < rows.length) : rows[i]? = some (rows.getD i []) := by
  rw [List.getD_eq_getElem?_getD, List.getElem?_eq_getElem hi]
  rfl

theorem fix_eq {t : Table} (h1 : ¬ t.rows = []) (h2 : ¬ desigCols t.columns = []) :
    fix_dataframe t = { t with rows :=
      (if (pass12 t).any (fun r => allNoneDesig t.columns r) then
        pass3rows t.columns (pass12 t)
      else pass12 t) } := by
  rw [fix_dataframe, if_neg h1, if_neg h2]
  rfl

theorem rowAt_length {t : Table} (hwf : t.WF) {i : ℕ} (hi : i < t.rows.length) :
    (rowAt t i).length = t.columns.length := by
  apply hwf.2
  rw [rowAt, List.get?_eq_getElem?, List.getElem?_eq_getElem hi]
  exact List.getElem_mem hi

theorem pass12_length (t : Table) : (pass12 t).length = t.rows.length := by
  rw [pass12, List.length_map, List.length_map]

theorem pass12_getD {t : Table} {i : ℕ} (hi : i < t.rows.length) :
    (pass12 t).getD i [] = pass2row t.columns (pass1row t.columns (rowAt t i)) := by
  rw [pass12, List.getD_eq_getElem?_getD, List.getElem?_map, List.getElem?_map,
    List.getElem?_eq_getElem hi]
  dsimp only [Option.map_some', Option.getD_some]
  rw [rowAt, List.get?_eq_getElem?, List.getElem?_eq_getElem hi]
  rfl

theorem pass12_rect {t : Table} (hwf : t.WF) :
    ∀ r ∈ pass12 t, r.length = t.columns.length := by
  intro r hr
  rw [pass12] at hr
  rcases List.mem_map.1 hr with ⟨r1, hr1, rfl⟩
  rcases List.mem_map.1 hr1 with ⟨r0, hr0, rfl⟩
  exact pass2row_length (pass1row_length (hwf.2 r0 hr0))

theorem pass12_nz {t : Table} (hwf : t.WF) (hnz : NoZeroNonDesig t) :
    ∀ i < t.rows.length, ∀ x ∈ (pass12 t).getD i [], x ≠ some 0 := by
  intro i hi x hx
  rw [pass12_getD hi] at hx
  have hlen : (rowAt t i).length = t.columns.length := rowAt_length hwf hi
  refine pass2row_all_ne_zero (pass1row_length hlen) ?_ x hx
  apply pass1row_all_ne_zero hlen
  intro j hj hp
  have := hnz i hi j hj hp
  rwa [cellIJ_eq] at this

theorem pass12_dich {t : Table} (hwf : t.WF) :
    ∀ i < t.rows.length, allNoneDesig t.columns ((pass12 t).getD i []) = true ∨
      anyNoneDesig t.columns ((pass12 t).getD i []) = false := by
  intro i hi
  rw [pass12_getD hi]
  rcases pass2row_dichotomy (pass1row_length (rowAt_length hwf hi)) with ⟨h, -⟩ | h
  · exact Or.inl h
  · exact Or.inr h

theorem allNoneDesig_of_empty_desig {cs : List String} {r : List Cell}
    (h : desigCols cs = []) : allNoneDesig cs r = true := by
  rw [allNoneDesig, rowDesig, h]
  rfl

theorem desig_empty_of_all_any {cs : List String} {r : List Cell}
    (hall : allNoneDesig cs r = true) (hany : anyNoneDesig cs r = false) :
    desigCols cs = [] := by
  cases hd : desigCols cs with
  | nil => rfl
  | cons c rest =>
    exfalso
    have hcell := allNoneDesig_iff.1 hall c (by rw [hd]; exact List.mem_cons_self _ _)
    have : anyNoneDesig cs r = true :=
      anyNoneDesig_iff.2 ⟨c, by rw [hd]; exact List.mem_cons_self _ _, hcell⟩
    rw [this] at hany
    cases hany

theorem pass12_allNone_inv {t : Table} (hwf : t.WF) :
    ∀ i < t.rows.length, allNoneDesig t.columns ((pass12 t).getD i []) = true →
      allNoneDesig t.columns (pass1row t.columns (rowAt t i)) = true := by
  intro i hi hall
  rw [pass12_getD hi] at hall
  rcases pass2row_dichotomy (pass1row_length (rowAt_length hwf hi)) with ⟨-, h1⟩ | h
  · exact h1
  · exact allNoneDesig_of_empty_desig (desig_empty_of_all_any hall h)

theorem pass12_nondesig {t : Table} (hwf : t.WF) :
    ∀ i < t.rows.length, ∀ j < t.columns.length,
      ¬ isPrice (t.columns.getD j "") = true →
      ((pass12 t).getD i []).getD j none = (rowAt t i).getD j none := by
  intro i hi j hj hp
  rw [pass12_getD hi,
    pass2row_nondesig hj (pass1row_length (rowAt_length hwf hi)) hp,
    pass1row_nondesig hj (rowAt_length hwf hi) hp]

end ThetaData

namespace ThetaData

/-! ### Corrector: designated-cell index lemmas and identity passes -/

theorem mem_desigCols_iff {cs : List String} {c : String} :
    c ∈ desigCols cs ↔ isPrice c = true ∧ c ∈ cs := by
  rw [desigCols, List.mem_filter, isPrice]
  constructor
  · rintro ⟨h1, h2⟩
    exact ⟨List.elem_eq_true_of_mem h1, List.mem_of_elem_eq_true h2⟩
  · rintro ⟨h1, h2⟩
    exact ⟨List.mem_of_elem_eq_true h1, List.elem_eq_true_of_mem h2⟩

theorem getD_self_mem {l : List Cell} {j : ℕ} (hj : j < l.length) :
    l.getD j none ∈ l := by
  rw [List.getD_eq_getElem?_getD, List.getElem?_eq_getElem hj]
  exact List.getElem_mem hj

theorem getD_col_mem {cs : List String} {j : ℕ} (hj : j < cs.length) :
    cs.getD j "" ∈ cs := by
  rw [List.getD_eq_getElem?_getD, List.getElem?_eq_getElem hj]
  exact List.getElem_mem hj

theorem rows_getD_mem {rows : List (List Cell)} {i : ℕ} (hi : i < rows.length) :
    rows.getD i [] ∈ rows := by
  rw [List.getD_eq_getElem?_getD, List.getElem?_eq_getElem hi]
  exact List.getElem_mem hi

theorem desigCols_ne_nil {cs : List String} {j : ℕ} (hj : j < cs.length)
    (hp : isPrice (cs.getD j "") = true) : desigCols cs ≠ [] :=
  List.ne_nil_of_mem (mem_desigCols_iff.2 ⟨hp, getD_col_mem hj⟩)

theorem desig_getD_of_allNone {cs : List String} {r : List Cell} (hnd : cs.Nodup)
    {j : ℕ} (hj : j < cs.length) (hp : isPrice (cs.getD j "") = true)
    (hall : allNoneDesig cs r = true) : r.getD j none = none := by
  have := allNoneDesig_iff.1 hall (cs.getD j "")
    (mem_desigCols_iff.2 ⟨hp, getD_col_mem hj⟩)
  rwa [cellAt_of_nodup hnd hj] at this

theorem desig_getD_isSome_of_notAny {cs : List String} {r : List Cell} (hnd : cs.Nodup)
    {j : ℕ} (hj : j < cs.length) (hp : isPrice (cs.getD j "") = true)
    (hany : anyNoneDesig cs r = false) : (r.getD j none).isSome := by
  cases hcell : r.getD j none with
  | some v => rfl
  | none =>
    exfalso
    have : anyNoneDesig cs r = true := anyNoneDesig_iff.2
      ⟨cs.getD j "", mem_desigCols_iff.2 ⟨hp, getD_col_mem hj⟩,
        by rwa [cellAt_of_nodup hnd hj]⟩
    rw [this] at hany
    cases hany

theorem allNone_false_of_desig_some {cs : List String} {r : List Cell} (hnd : cs.Nodup)
    {j : ℕ} (hj : j < cs.length) (hp : isPrice (cs.getD j "") = true)
    (hs : (r.getD j none).isSome) : allNoneDesig cs r = false := by
  cases hall : allNoneDesig cs r with
  | false => rfl
  | true =>
    exfalso
    rw [desig_getD_of_allNone hnd hj hp hall] at hs
    cases hs

theorem pass1row_id {cs : List String} {r : List Cell} (hr : r.length = cs.length)
    (h : ∀ j < cs.length, isPrice (cs.getD j "") = true → r.getD j none ≠ some 0) :
    pass1row cs r = r := by
  apply List.ext_getElem?
  intro j
  by_cases hj : j < cs.length
  · rw [getElem?_eq_some_getD (by rw [pass1row_length hr]; exact hj),
      getElem?_eq_some_getD (by rw [hr]; exact hj), pass1row_getD hj hr]
    congr 1
    by_cases hp : isPrice (cs.getD j "") = true
    · rw [if_neg (fun hc => h j hj hp hc.2)]
    · rw [if_neg (fun hc => hp hc.1)]
  · rw [List.getElem?_eq_none (by rw [pass1row_length hr]; omega),
      List.getElem?_eq_none (by rw [hr]; omega)]

theorem pass3rows_id {cs : List String} {rows : List (List Cell)}
    (hrect : ∀ r ∈ rows, r.length = cs.length)
    (hcols : ∀ j < cs.length, isPrice (cs.getD j "") = true →
      bfillffill (colJ rows j) = colJ rows j) :
    pass3rows cs rows = rows := by
  apply List.ext_getElem?
  intro i
  by_cases hi : i < rows.length
  · rw [rows_getElem?_eq_some_getD (by rw [pass3rows_length]; exact hi),
      rows_getElem?_eq_some_getD hi]
    congr 1
    apply List.ext_getElem?
    intro j
    have hrl : ((pass3rows cs rows).getD i []).length = cs.length :=
      pass3rows_rowlength _ (rows_getD_mem (by rw [pass3rows_length]; exact hi))
    have hrl2 : (rows.getD i []).length = cs.length := hrect _ (rows_getD_mem hi)
    by_cases hj : j < cs.length
    · rw [getElem?_eq_some_getD (by rw [hrl]; exact hj),
        getElem?_eq_some_getD (by rw [hrl2]; exact hj),
        pass3rows_getD hi hj]
      congr 1
      by_cases hp : isPrice (cs.getD j "") = true
      · rw [if_pos hp, hcols j hj hp, colJ_getD_eq j hi]
      · rw [if_neg hp, colJ_getD_eq j hi]
    · rw [List.getElem?_eq_none (by rw [hrl]; omega),
        List.getElem?_eq_none (by rw [hrl2]; omega)]
  · rw [List.getElem?_eq_none (by rw [pass3rows_length]; omega),
      List.getElem?_eq_none (by omega)]

end ThetaData

namespace ThetaData

/-! ### Corrector: tables already in repaired form are fixpoints -/

theorem fix_columns (t : Table) : (fix_dataframe t).columns = t.columns := by
  rw [fix_dataframe]
  by_cases h1 : t.rows = []
  · rw [if_pos h1]
  · rw [if_neg h1]
    by_cases h2 : desigCols t.columns = []
    · rw [if_pos h2]
    · rw [if_neg h2]

theorem fix_fixpoint {u : Table} (hwf : u.WF)
    (hnzd : ∀ i < u.rows.length, ∀ j < u.columns.length,
      isPrice (u.columns.getD j "") = true → cellIJ u i j ≠ some 0)
    (hglob : (∀ i < u.rows.length, allNoneDesig u.columns (rowAt u i) = true) ∨
      (∀ i < u.rows.length, anyNoneDesig u.columns (rowAt u i) = false)) :
    fix_dataframe u = u := by
  by_cases h1 : u.rows = []
  · rw [fix_dataframe, if_pos h1]
  by_cases h2 : desigCols u.columns = []
  · rw [fix_dataframe, if_neg h1, if_pos h2]
  rw [fix_eq h1 h2]
  have hidx : ∀ r ∈ u.rows, ∃ i, i < u.rows.length ∧ rowAt u i = r := by
    intro r hr
    rcases List.mem_iff_getElem.1 hr with ⟨i, hi, heq⟩
    refine ⟨i, hi, ?_⟩
    rw [rowAt, List.get?_eq_getElem?, List.getElem?_eq_getElem hi]
    exact heq
  have hpass1 : u.rows.map (pass1row u.columns) = u.rows := by
    apply List.ext_getElem?
    intro i
    by_cases hi : i < u.rows.length
    · rw [List.getElem?_map, List.getElem?_eq_getElem hi]
      dsimp only [Option.map_some']
      congr 1
      have hrow : rowAt u i = u.rows[i] := by
        rw [rowAt, List.get?_eq_getElem?, List.getElem?_eq_getElem hi]
        rfl
      rw [← hrow]
      apply pass1row_id (rowAt_length hwf hi)
      intro j hj hp
      have := hnzd i hi j hj hp
      rwa [cellIJ_eq] at this
    · rw [List.getElem?_eq_none (by rw [List.length_map]; omega),
        List.getElem?_eq_none (by omega)]
  have hpass2 : ∀ i < u.rows.length,
      pass2row u.columns (rowAt u i) = rowAt u i := by
    intro i hi
    apply pass2row_of_not_cond
    rcases hglob with hall | hany
    · rintro ⟨-, hna⟩
      exact hna (hall i hi)
    · rintro ⟨ha, -⟩
      rw [hany i hi] at ha
      cases ha
  have hpass12 : pass12 u = u.rows := by
    rw [pass12, hpass1]
    apply List.ext_getElem?
    intro i
    by_cases hi : i < u.rows.length
    · rw [List.getElem?_map, List.getElem?_eq_getElem hi]
      dsimp only [Option.map_some']
      congr 1
      have hrow : rowAt u i = u.rows[i] := by
        rw [rowAt, List.get?_eq_getElem?, List.getElem?_eq_getElem hi]
        rfl
      rw [← hrow]
      exact hpass2 i hi
    · rw [List.getElem?_eq_none (by rw [List.length_map]; omega),
        List.getElem?_eq_none (by omega)]
  rw [hpass12]
  rcases hglob with hall | hany
  · have hguard : u.rows.any (fun r => allNoneDesig u.columns r) = true := by
      rw [List.any_eq_true]
      cases hrows : u.rows with
      | nil => exact absurd hrows h1
      | cons r rest =>
        refine ⟨r, List.mem_cons_self _ _, ?_⟩
        rcases hidx r (by rw [hrows]; exact List.mem_cons_self _ _) with ⟨i, hi, heq⟩
        rw [← heq]
        exact hall i hi
    have hcols : ∀ j < u.columns.length, isPrice (u.columns.getD j "") = true →
        bfillffill (colJ u.rows j) = colJ u.rows j := by
      intro j hj hp
      apply bfillffill_all_none
      intro x hx
      rcases colJ_mem hx with ⟨r, hr, heq⟩
      rcases hidx r hr with ⟨i, hi, rfl⟩
      rw [← heq, List.get?_eq_getElem?]
      have := desig_getD_of_allNone hwf.1 hj hp (hall i hi)
      rw [List.getD_eq_getElem?_getD] at this
      exact this
    rw [if_pos hguard, pass3rows_id hwf.2 hcols]
  · have hguard : u.rows.any (fun r => allNoneDesig u.columns r) = false := by
      rw [List.any_eq_false]
      intro r hr
      rcases hidx r hr with ⟨i, hi, rfl⟩
      obtain ⟨c, hcd⟩ : ∃ c, c ∈ desigCols u.columns := by
        cases hd : desigCols u.columns with
        | nil => exact absurd hd h2
        | cons c rest => exact ⟨c, List.mem_cons_self _ _⟩
      rcases Option.isSome_iff_exists.1 (idxOf?_isSome (mem_of_mem_desig hcd)) with ⟨jc, hjc⟩
      rcases List.getElem?_eq_some_iff.1 (idxOf?_some hjc) with ⟨hjlt, hceq⟩
      have hgetD : u.columns.getD jc "" = c := by
        rw [List.getD_eq_getElem?_getD, List.getElem?_eq_getElem hjlt, hceq]
        rfl
      have hp : isPrice (u.columns.getD jc "") = true := by
        rw [hgetD]
        exact isPrice_of_mem_desig hcd
      have hs : ((rowAt u i).getD jc none).isSome :=
        desig_getD_isSome_of_notAny hwf.1 hjlt hp (hany i hi)
      have hfalse := allNone_false_of_desig_some hwf.1 hjlt hp hs
      simp [hfalse]
    have hguard2 : ¬ ((u.rows.any fun r => allNoneDesig u.columns r) = true) := by
      simp [hguard]
    rw [if_neg hguard2]

end ThetaData

namespace ThetaData

theorem desig_cellAt_getD {cs : List String} {r : List Cell} (hnd : cs.Nodup)
    {c : String} (hcd : c ∈ desigCols cs) :
    ∃ jc, jc < cs.length ∧ cs.getD jc "" = c ∧
      cellAt cs r c = r.getD jc none := by
  rcases Option.isSome_iff_exists.1 (idxOf?_isSome (mem_of_mem_desig hcd)) with ⟨jc, hjc⟩
  rcases List.getElem?_eq_some_iff.1 (idxOf?_some hjc) with ⟨hjlt, hceq⟩
  have hgetD : cs.getD jc "" = c := by
    rw [List.getD_eq_getElem?_getD, List.getElem?_eq_getElem hjlt, hceq]
    rfl
  exact ⟨jc, hjlt, hgetD, by rw [← hgetD, cellAt_of_nodup hnd hjlt]⟩

/-- C9: repair returns a table unchanged when its designated price columns
contain no zeros and no missing values. -/
theorem fix_roundtrip {t : Table} (hwf : t.WF)
    (hclean : ∀ i < t.rows.length, ∀ j < t.columns.length,
      isPrice (t.columns.getD j "") = true →
      cellIJ t i j ≠ none ∧ cellIJ t i j ≠ some 0) :
    fix_dataframe t = t := by
  refine fix_fixpoint hwf (fun i hi j hj hp => (hclean i hi j hj hp).2) (Or.inr ?_)
  intro i hi
  cases hany : anyNoneDesig t.columns (rowAt t i) with
  | false => rfl
  | true =>
    exfalso
    rcases anyNoneDesig_iff.1 hany with ⟨c, hcd, hcell⟩
    rcases desig_cellAt_getD hwf.1 (r := rowAt t i) hcd with ⟨jc, hjlt, hgetD, heq⟩
    have h1 := (hclean i hi jc hjlt (by rw [hgetD]; exact isPrice_of_mem_desig hcd)).1
    rw [cellIJ_eq, ← heq] at h1
    exact h1 hcell

/-- C9 witness: a concrete clean table is returned unchanged. -/
theorem fix_roundtrip_witness : fix_dataframe tblClean = tblClean :=
  fix_roundtrip (by decide) (by decide)

theorem getD_none_some_mem {r : List Cell} {j : ℕ} {v : ℤ}
    (h : (r.get? j).getD none = some v) : some v ∈ r := by
  cases hr : r.get? j with
  | none => rw [hr] at h; cases h
  | some c =>
    rw [hr] at h
    have hc : c = some v := h
    rw [List.get?_eq_getElem?] at hr
    rcases List.getElem?_eq_some_iff.1 hr with ⟨hlt, hcell⟩
    rw [hc] at hcell
    exact hcell ▸ List.getElem_mem hlt

theorem pass12_nz_mem {t : Table} (hwf : t.WF) (hnz : NoZeroNonDesig t) :
    ∀ r ∈ pass12 t, ∀ x ∈ r, x ≠ some 0 := by
  intro r hr
  rw [pass12] at hr
  rcases List.mem_map.1 hr with ⟨r1, hr1, rfl⟩
  rcases List.mem_map.1 hr1 with ⟨r0, hr0, rfl⟩
  rcases List.mem_iff_getElem.1 hr0 with ⟨i, hi, heq⟩
  have hrow : rowAt t i = r0 := by
    rw [rowAt, List.get?_eq_getElem?, List.getElem?_eq_getElem hi]
    exact heq
  have hlen : r0.length = t.columns.length := hwf.2 r0 hr0
  refine pass2row_all_ne_zero (pass1row_length hlen) ?_
  apply pass1row_all_ne_zero hlen
  intro j hj hp
  have := hnz i hi j hj hp
  rwa [cellIJ_eq, hrow] at this

theorem fix_rows_length (t : Table) : (fix_dataframe t).rows.length = t.rows.length := by
  by_cases h1 : t.rows = []
  · rw [fix_dataframe, if_pos h1]
  by_cases h2 : desigCols t.columns = []
  · rw [fix_dataframe, if_neg h1, if_pos h2]
  rw [fix_eq h1 h2]
  by_cases hg : (pass12 t).any (fun r => allNoneDesig t.columns r) = true
  · rw [if_pos hg]
    rw [pass3rows_length, pass12_length]
  · rw [if_neg hg, pass12_length]

theorem fix_rect {t : Table} (hwf : t.WF) :
    ∀ r ∈ (fix_dataframe t).rows, r.length = t.columns.length := by
  by_cases h1 : t.rows = []
  · rw [fix_dataframe, if_pos h1]
    exact hwf.2
  by_cases h2 : desigCols t.columns = []
  · rw [fix_dataframe, if_neg h1, if_pos h2]
    exact hwf.2
  rw [fix_eq h1 h2]
  by_cases hg : (pass12 t).any (fun r => allNoneDesig t.columns r) = true
  · rw [if_pos hg]
    exact pass3rows_rowlength
  · rw [if_neg hg]
    exact pass12_rect hwf

theorem fix_wf {t : Table} (hwf : t.WF) : (fix_dataframe t).WF := by
  constructor
  · rw [fix_columns]
    exact hwf.1
  · rw [fix_columns]
    exact fix_rect hwf

end ThetaData

namespace ThetaData

theorem rowAt_mk {t : Table} {X : List (List Cell)} {i : ℕ} :
    rowAt { t with rows := X } i = X.getD i [] := by
  rw [rowAt, List.get?_eq_getElem?, ← List.getD_eq_getElem?_getD]

theorem fix_cellIJ {t : Table} (h1 : ¬ t.rows = []) (h2 : ¬ desigCols t.columns = [])
    {i j : ℕ} (hi : i < t.rows.length) (hj : j < t.columns.length) :
    cellIJ (fix_dataframe t) i j =
      (if (pass12 t).any (fun r => allNoneDesig t.columns r) = true then
        (if isPrice (t.columns.getD j "") = true then
          (bfillffill (colJ (pass12 t) j)).getD i none
        else (colJ (pass12 t) j).getD i none)
      else ((pass12 t).getD i []).getD j none) := by
  rw [fix_eq h1 h2, cellIJ_eq, rowAt_mk]
  by_cases hg : (pass12 t).any (fun r => allNoneDesig t.columns r) = true
  · rw [if_pos hg, if_pos hg]
    exact pass3rows_getD (by rw [pass12_length]; exact hi) hj
  · rw [if_neg hg, if_neg hg]

theorem fix_cells_nz {t : Table} (hwf : t.WF) (hnz : NoZeroNonDesig t) :
    ∀ i < t.rows.length, ∀ j < t.columns.length,
      cellIJ (fix_dataframe t) i j ≠ some 0 := by
  intro i hi j hj
  by_cases h1 : t.rows = []
  · exfalso
    rw [h1] at hi
    simp at hi
  by_cases h2 : desigCols t.columns = []
  · rw [show fix_dataframe t = t by rw [fix_dataframe, if_neg h1, if_pos h2]]
    by_cases hp : isPrice (t.columns.getD j "") = true
    · exact absurd (desigCols_ne_nil hj hp) (fun h => h h2)
    · exact hnz i hi j hj hp
  have hpnz : ∀ x ∈ (pass12 t).getD i [], x ≠ some 0 :=
    pass12_nz_mem hwf hnz _ (rows_getD_mem (by rw [pass12_length]; exact hi))
  rw [fix_cellIJ h1 h2 hi hj]
  by_cases hg : (pass12 t).any (fun r => allNoneDesig t.columns r) = true
  · rw [if_pos hg]
    by_cases hp : isPrice (t.columns.getD j "") = true
    · rw [if_pos hp]
      intro hzero
      have hlen : i < (bfillffill (colJ (pass12 t) j)).length := by
        rw [bfillffill_length, colJ_length, pass12_length]
        exact hi
      have hmem : (some 0 : Cell) ∈ bfillffill (colJ (pass12 t) j) := by
        rw [← hzero]
        exact getD_self_mem hlen
      have hmem2 := bfillffill_mem_of_isSome hmem rfl
      rcases colJ_mem hmem2 with ⟨r, hr, heq⟩
      exact pass12_nz_mem hwf hnz r hr _ (getD_none_some_mem heq) rfl
    · rw [if_neg hp]
      rw [colJ_getD_eq j (by rw [pass12_length]; exact hi)]
      intro hzero
      have hjlen : j < ((pass12 t).getD i []).length := by
        rw [pass12_rect hwf _ (rows_getD_mem (by rw [pass12_length]; exact hi))]
        exact hj
      exact hpnz _ (hzero ▸ getD_self_mem hjlen) rfl
  · rw [if_neg hg]
    intro hzero
    have hjlen : j < ((pass12 t).getD i []).length := by
      rw [pass12_rect hwf _ (rows_getD_mem (by rw [pass12_length]; exact hi))]
      exact hj
    exact hpnz _ (hzero ▸ getD_self_mem hjlen) rfl

end ThetaData

namespace ThetaData

theorem guard_false_anyNone {t : Table} (hwf : t.WF)
    (hg : ¬ (pass12 t).any (fun r => allNoneDesig t.columns r) = true) :
    ∀ i < t.rows.length, anyNoneDesig t.columns ((pass12 t).getD i []) = false := by
  intro i hi
  have hgf : (pass12 t).any (fun r => allNoneDesig t.columns r) = false := by
    cases hA : (pass12 t).any (fun r => allNoneDesig t.columns r) with
    | true => exact absurd hA hg
    | false => rfl
  have hmem : (pass12 t).getD i [] ∈ pass12 t :=
    rows_getD_mem (by rw [pass12_length]; exact hi)
  have hnotall := List.any_eq_false.1 hgf _ hmem
  rcases pass12_dich hwf i hi with hA | hB
  · exact absurd hA hnotall
  · exact hB

theorem fix_desig_allSome {t : Table} (hwf : t.WF)
    {j : ℕ} (hj : j < t.columns.length) (hp : isPrice (t.columns.getD j "") = true)
    (hex : ∃ i0, i0 < t.rows.length ∧ cellIJ t i0 j ≠ none ∧ cellIJ t i0 j ≠ some 0) :
    ∀ i < t.rows.length, (cellIJ (fix_dataframe t) i j).isSome := by
  rcases hex with ⟨i0, hi0, hnn, hnz0⟩
  have h1 : ¬ t.rows = [] := by
    intro h
    rw [h] at hi0
    simp at hi0
  have h2 : ¬ desigCols t.columns = [] := desigCols_ne_nil hj hp
  rcases Option.ne_none_iff_exists'.1 hnn with ⟨v, hv⟩
  have hvne : v ≠ 0 := by
    intro h
    rw [h] at hv
    exact hnz0 hv
  rw [cellIJ_eq] at hv
  have hcell1 : (pass1row t.columns (rowAt t i0)).getD j none = some v := by
    rw [pass1row_getD hj (rowAt_length hwf hi0), hv, if_neg]
    rintro ⟨-, heq⟩
    exact hvne (Option.some_inj.1 heq)
  have hallNone1 : allNoneDesig t.columns (pass1row t.columns (rowAt t i0)) = false :=
    allNone_false_of_desig_some hwf.1 hj hp (by rw [hcell1]; rfl)
  have hany0 : anyNoneDesig t.columns ((pass12 t).getD i0 []) = false := by
    rw [pass12_getD hi0]
    rcases pass2row_dichotomy (pass1row_length (rowAt_length hwf hi0)) with ⟨-, hA⟩ | hB
    · rw [hallNone1] at hA
      cases hA
    · exact hB
  have hsome0 : (((pass12 t).getD i0 []).getD j none).isSome :=
    desig_getD_isSome_of_notAny hwf.1 hj hp hany0
  intro i hi
  rw [fix_cellIJ h1 h2 hi hj]
  by_cases hg : (pass12 t).any (fun r => allNoneDesig t.columns r) = true
  · rw [if_pos hg, if_pos hp]
    refine bfillffill_all_isSome ⟨((pass12 t).getD i0 []).getD j none, ?_, hsome0⟩ _
      (getD_self_mem ?_)
    · rw [← colJ_getD_eq j (by rw [pass12_length]; exact hi0)]
      exact getD_self_mem (by rw [colJ_length, pass12_length]; exact hi0)
    · rw [bfillffill_length, colJ_length, pass12_length]
      exact hi
  · rw [if_neg hg]
    exact desig_getD_isSome_of_notAny hwf.1 hj hp (guard_false_anyNone hwf hg i hi)

theorem fix_dich {t : Table} (hwf : t.WF) :
    (∀ i < t.rows.length, allNoneDesig t.columns (rowAt (fix_dataframe t) i) = true) ∨
    (∀ i < t.rows.length, anyNoneDesig t.columns (rowAt (fix_dataframe t) i) = false) := by
  by_cases h1 : t.rows = []
  · left
    intro i hi
    rw [h1] at hi
    simp at hi
  by_cases h2 : desigCols t.columns = []
  · left
    intro i hi
    exact allNoneDesig_of_empty_desig h2
  by_cases hex : ∃ i0, i0 < t.rows.length ∧
      allNoneDesig t.columns ((pass12 t).getD i0 []) = false
  · right
    rcases hex with ⟨i0, hi0, h0⟩
    have hany0 : anyNoneDesig t.columns ((pass12 t).getD i0 []) = false := by
      rcases pass12_dich hwf i0 hi0 with hA | hB
      · rw [h0] at hA
        cases hA
      · exact hB
    intro i hi
    cases hany : anyNoneDesig t.columns (rowAt (fix_dataframe t) i) with
    | false => rfl
    | true =>
      exfalso
      rcases anyNoneDesig_iff.1 hany with ⟨c, hcd, hcell⟩
      rcases desig_cellAt_getD hwf.1 (r := rowAt (fix_dataframe t) i) hcd with
        ⟨jc, hjlt, hgetD, heq⟩
      have hpj : isPrice (t.columns.getD jc "") = true := by
        rw [hgetD]
        exact isPrice_of_mem_desig hcd
      have hsomejc : (cellIJ (fix_dataframe t) i jc).isSome := by
        rw [fix_cellIJ h1 h2 hi hjlt]
        by_cases hg : (pass12 t).any (fun r => allNoneDesig t.columns r) = true
        · rw [if_pos hg, if_pos hpj]
          refine bfillffill_all_isSome
            ⟨((pass12 t).getD i0 []).getD jc none, ?_, ?_⟩ _ (getD_self_mem ?_)
          · rw [← colJ_getD_eq jc (by rw [pass12_length]; exact hi0)]
            exact getD_self_mem (by rw [colJ_length, pass12_length]; exact hi0)
          · exact desig_getD_isSome_of_notAny hwf.1 hjlt hpj hany0
          · rw [bfillffill_length, colJ_length, pass12_length]
            exact hi
        · rw [if_neg hg]
          exact desig_getD_isSome_of_notAny hwf.1 hjlt hpj (guard_false_anyNone hwf hg i hi)
      rw [cellIJ_eq, ← heq, hcell] at hsomejc
      cases hsomejc
  · left
    have hall : ∀ i < t.rows.length,
        allNoneDesig t.columns ((pass12 t).getD i []) = true := by
      intro i hi
      cases hA : allNoneDesig t.columns ((pass12 t).getD i []) with
      | true => rfl
      | false => exact absurd ⟨i, hi, hA⟩ hex
    have hpos : 0 < t.rows.length := List.length_pos.2 h1
    have hguard : (pass12 t).any (fun r => allNoneDesig t.columns r) = true := by
      rw [List.any_eq_true]
      exact ⟨(pass12 t).getD 0 [], rows_getD_mem (by rw [pass12_length]; exact hpos),
        hall 0 hpos⟩
    intro i hi
    rw [allNoneDesig_iff]
    intro c hcd
    rcases desig_cellAt_getD hwf.1 (r := rowAt (fix_dataframe t) i) hcd with
      ⟨jc, hjlt, hgetD, heq⟩
    rw [heq]
    have hpj : isPrice (t.columns.getD jc "") = true := by
      rw [hgetD]
      exact isPrice_of_mem_desig hcd
    rw [show (rowAt (fix_dataframe t) i).getD jc none = cellIJ (fix_dataframe t) i jc from
      (cellIJ_eq _ _ _).symm]
    rw [fix_cellIJ h1 h2 hi hjlt, if_pos hguard, if_pos hpj]
    have hcolnone : ∀ x ∈ colJ (pass12 t) jc, x = none := by
      intro x hx
      rcases colJ_mem hx with ⟨r, hr, hform⟩
      rcases List.mem_iff_getElem.1 hr with ⟨k, hk, hkeq⟩
      have hrk : (pass12 t).getD k [] = r := by
        rw [List.getD_eq_getElem?_getD, List.getElem?_eq_getElem hk]
        exact hkeq
      have hkl : k < t.rows.length := by
        rw [← pass12_length t]
        exact hk
      have hnone := desig_getD_of_allNone hwf.1 hjlt hpj (hrk ▸ hall k hkl)
      rw [← hform, List.get?_eq_getElem?]
      rw [List.getD_eq_getElem?_getD] at hnone
      exact hnone
    rw [bfillffill_all_none hcolnone, colJ_getD_eq jc (by rw [pass12_length]; exact hi)]
    exact desig_getD_of_allNone hwf.1 hjlt hpj (hall i hi)

end ThetaData

namespace ThetaData

/-- C3 (amended): repair is idempotent on every well-formed table whose
cells outside the designated price columns are never exactly zero. -/
theorem fix_idempotent {t : Table} (hwf : t.WF) (hnz : NoZeroNonDesig t) :
    fix_dataframe (fix_dataframe t) = fix_dataframe t := by
  apply fix_fixpoint (fix_wf hwf)
  · intro i hi j hj hp
    rw [fix_rows_length] at hi
    rw [fix_columns] at hj hp
    exact fix_cells_nz hwf hnz i hi j hj
  · rcases fix_dich hwf with h | h
    · left
      intro i hi
      rw [fix_rows_length] at hi
      rw [fix_columns]
      exact h i hi
    · right
      intro i hi
      rw [fix_rows_length] at hi
      rw [fix_columns]
      exact h i hi

/-- C3 witness: idempotence on a concrete gap-filled table. -/
theorem fix_idempotent_witness :
    fix_dataframe (fix_dataframe tblGap) = fix_dataframe tblGap :=
  fix_idempotent (by decide) (by decide)

/-- C3 counterexample: `repair(repair(x)) ≠ repair(x)` for the table whose
non-designated `count` column holds a zero next to a fully-missing row. -/
theorem fix_not_idempotent :
    fix_dataframe (fix_dataframe tblC3) ≠ fix_dataframe tblC3 := by decide

/-- C2 (amended): for a well-formed table with no zeros outside the
designated price columns, after repair a designated column holds no
missing value and no exact zero, unless it was zero-or-missing in every
input row. -/
theorem fix_no_zero_no_missing {t : Table} (hwf : t.WF) (hnz : NoZeroNonDesig t) :
    ∀ j < t.columns.length, isPrice (t.columns.getD j "") = true →
      (∃ i0, i0 < t.rows.length ∧ cellIJ t i0 j ≠ none ∧ cellIJ t i0 j ≠ some 0) →
      ∀ i < t.rows.length,
        cellIJ (fix_dataframe t) i j ≠ none ∧ cellIJ (fix_dataframe t) i j ≠ some 0 := by
  intro j hj hp hex i hi
  constructor
  · have hs := fix_desig_allSome hwf hj hp hex i hi
    intro hnone
    rw [hnone] at hs
    cases hs
  · exact fix_cells_nz hwf hnz i hi j hj

/-- C2 witness: the amended guarantee at a concrete table. -/
theorem fix_no_zero_no_missing_witness :
    cellIJ (fix_dataframe tblW2) 0 1 ≠ none ∧
      cellIJ (fix_dataframe tblW2) 0 1 ≠ some 0 :=
  fix_no_zero_no_missing (by decide) (by decide) 1 (by decide) (by decide)
    ⟨1, by decide, by decide, by decide⟩ 0 (by decide)

/-- C2 counterexample: the claim as stated fails on `tblC2`, whose `close`
column is not all-zero-or-missing yet holds an exact zero after repair. -/
theorem claimC2_false : ¬ ClaimC2At tblC2 := by
  intro h
  exact (h 0 (by decide) (by decide) ⟨1, by decide, by decide, by decide⟩ 0 (by decide)).2
    (by decide)

/-- C1 (amended): in a well-formed table, for every row in which some but
not all designated cells are missing after zero-normalization, each
missing designated cell is filled with the row's `close` when present and
valid, and otherwise with the first non-missing cell of the whole row in
the combine-first label order — `validVal`. -/
theorem fix_intra_row_fill {t : Table} (hwf : t.WF) :
    ∀ i < t.rows.length,
      anyNoneDesig t.columns (pass1row t.columns (rowAt t i)) = true →
      allNoneDesig t.columns (pass1row t.columns (rowAt t i)) = false →
      ∀ j < t.columns.length, isPrice (t.columns.getD j "") = true →
        (pass1row t.columns (rowAt t i)).getD j none = none →
        cellIJ (fix_dataframe t) i j =
          validVal t.columns (pass1row t.columns (rowAt t i)) := by
  intro i hi hany hnall j hj hp hnone
  have h1 : ¬ t.rows = [] := fun h => by rw [h] at hi; simp at hi
  have h2 : ¬ desigCols t.columns = [] := desigCols_ne_nil hj hp
  have hcond : anyNoneDesig t.columns (pass1row t.columns (rowAt t i)) = true ∧
      ¬ allNoneDesig t.columns (pass1row t.columns (rowAt t i)) = true :=
    ⟨hany, by rw [hnall]; intro hc; cases hc⟩
  have hvv : ((pass12 t).getD i []).getD j none =
      validVal t.columns (pass1row t.columns (rowAt t i)) := by
    rw [pass12_getD hi,
      pass2row_getD_of_cond hcond hj (pass1row_length (rowAt_length hwf hi)),
      if_pos ⟨hp, hnone⟩]
  have hvs : (validVal t.columns (pass1row t.columns (rowAt t i))).isSome := by
    apply validVal_isSome
    rcases not_allNoneDesig_iff.1 hnall with ⟨c, hc, hs⟩
    exact ⟨c, hc, hs⟩
  rcases Option.isSome_iff_exists.1 hvs with ⟨v, hveq⟩
  rw [fix_cellIJ h1 h2 hi hj]
  by_cases hg : (pass12 t).any (fun r => allNoneDesig t.columns r) = true
  · rw [if_pos hg, if_pos hp]
    have hcol : (colJ (pass12 t) j).getD i none = some v := by
      rw [colJ_getD_eq j (by rw [pass12_length]; exact hi), hvv, hveq]
    rw [bfillffill_getD_some hcol, hveq]
  · rw [if_neg hg, hvv]

/-- C1 witness: the amended fill rule at the concrete table `tblC1`. -/
theorem fix_intra_row_fill_witness :
    cellIJ (fix_dataframe tblC1) 0 4 =
      validVal tblC1.columns (pass1row tblC1.columns (rowAt tblC1 0)) :=
  fix_intra_row_fill (by decide) 0 (by decide) (by decide) (by decide) 4
    (by decide) (by decide) (by decide)

/-- C1 counterexample: the claim as stated fails on `tblC1`: the code
fills `close` with 3 (from `low`, label order), the claim demands 5
(from `open`, declaration order). -/
theorem claimC1_false : ¬ ClaimC1At tblC1 := by
  intro h
  exact absurd (h 0 (by decide) (by decide) (by decide) 4 (by decide) (by decide) (by decide))
    (by decide)

end ThetaData

namespace ThetaData

/-! ### Derivation: search structure lemmas -/

theorem deriveFrame_cases (rows : List GRow) :
    deriveFrame rows = .emptyUnderlying ∨ ∃ tb, deriveFrame rows = .ok tb := by
  rw [deriveFrame]
  by_cases h : sortByTs (rows.filter validUp) = []
  · left
    rw [if_pos h]
  · right
    rw [if_neg h]
    exact ⟨_, rfl⟩

theorem deriveFrame_ne_noExp (rows : List GRow) :
    deriveFrame rows ≠ .noExpirations := by
  rcases deriveFrame_cases rows with h | ⟨tb, h⟩ <;> rw [h] <;> intro hc <;> cases hc

theorem deriveFrame_ne_derivFailed (rows : List GRow) :
    deriveFrame rows ≠ .derivationFailed := by
  rcases deriveFrame_cases rows with h | ⟨tb, h⟩ <;> rw [h] <;> intro hc <;> cases hc

theorem tryRights_some {env : GreeksEnv} {e K : ℤ} :
    ∀ {rl : List OptRight} {res : DRes}, tryRights env e K rl = some res →
      ∃ r ∈ rl, usableRight env e K r = true ∧
        res = deriveFrame (flattenItems (env.greeks e K r)) := by
  intro rl
  induction rl with
  | nil => intro res h; cases h
  | cons r rs ih =>
    intro res h
    rw [tryRights] at h
    by_cases hu : usableRight env e K r = true
    · rw [if_pos hu] at h
      cases h
      exact ⟨r, List.mem_cons_self _ _, hu, rfl⟩
    · rw [if_neg hu] at h
      rcases ih h with ⟨r', hm, hu', heq⟩
      exact ⟨r', List.mem_cons.2 (Or.inr hm), hu', heq⟩

theorem tryRights_none_iff {env : GreeksEnv} {e K : ℤ} :
    ∀ {rl : List OptRight}, tryRights env e K rl = none ↔
      ∀ r ∈ rl, usableRight env e K r = false := by
  intro rl
  induction rl with
  | nil => exact ⟨fun _ r hr => absurd hr (List.not_mem_nil r), fun _ => rfl⟩
  | cons r rs ih =>
    rw [tryRights]
    by_cases hu : usableRight env e K r = true
    · rw [if_pos hu]
      constructor
      · intro h; cases h
      · intro h
        rw [h r (List.mem_cons_self _ _)] at hu
        cases hu
    · rw [if_neg hu]
      rw [ih]
      constructor
      · intro h r' hr'
        rcases List.mem_cons.1 hr' with rfl | hm
        · cases hur : usableRight env e K r' with
          | false => rfl
          | true => exact absurd hur hu
        · exact h r' hm
      · intro h r' hr'
        exact h r' (List.mem_cons.2 (Or.inr hr'))

theorem expUsable_false_of_no_strikes {env : GreeksEnv} {e : ℤ}
    (hs : sortInts (env.strikes e) = []) : expUsable env e = false := by
  rw [expUsable, hs]
  rfl

theorem expUsable_true_of_usable {env : GreeksEnv} {e : ℤ}
    (hs : ¬ sortInts (env.strikes e) = []) {r : OptRight}
    (hm : r ∈ [OptRight.C, OptRight.P])
    (hu : usableRight env e (chosenStrikeOf env e) r = true) :
    expUsable env e = true := by
  rw [expUsable, Bool.and_eq_true, List.any_eq_true]
  constructor
  · rw [Bool.not_eq_true', ← Bool.not_eq_true]
    intro hc
    exact hs (List.isEmpty_iff.1 hc)
  · exact ⟨r, hm, hu⟩

theorem tryExps_derivFailed_iff {env : GreeksEnv} :
    ∀ {l : List ℤ}, tryExps env l = .derivationFailed ↔
      ∀ e ∈ l, expUsable env e = false := by
  intro l
  induction l with
  | nil => exact ⟨fun _ e he => absurd he (List.not_mem_nil e), fun _ => rfl⟩
  | cons e rest ih =>
    rw [tryExps]
    by_cases hs : sortInts (env.strikes e) = []
    · rw [if_pos hs, ih]
      constructor
      · intro h e' he'
        rcases List.mem_cons.1 he' with rfl | hm
        · exact expUsable_false_of_no_strikes hs
        · exact h e' hm
      · intro h e' he'
        exact h e' (List.mem_cons.2 (Or.inr he'))
    · rw [if_neg hs]
      cases htr : tryRights env e (chosenStrikeOf env e) [OptRight.C, OptRight.P] with
      | some res =>
        dsimp only
        rcases tryRights_some htr with ⟨r, hm, hu, rfl⟩
        constructor
        · intro h
          exact absurd h (deriveFrame_ne_derivFailed _)
        · intro h
          exfalso
          have htrue := expUsable_true_of_usable hs hm hu
          rw [h e (List.mem_cons_self _ _)] at htrue
          cases htrue
      | none =>
        dsimp only
        rw [ih]
        have hexp : expUsable env e = false := by
          rw [expUsable]
          have hall := tryRights_none_iff.1 htr
          cases hemp : (sortInts (env.strikes e)).isEmpty with
          | true => rfl
          | false =>
            have hany : ([OptRight.C, OptRight.P].any
                (usableRight env e (chosenStrikeOf env e))) = false := by
              rw [List.any_eq_false]
              intro r hr
              rw [hall r hr]
              intro hc
              cases hc
            rw [hany]
            rw [Bool.and_false]
        constructor
        · intro h e' he'
          rcases List.mem_cons.1 he' with rfl | hm
          · exact hexp
          · exact h e' hm
        · intro h e' he'
          exact h e' (List.mem_cons.2 (Or.inr he'))

end ThetaData

namespace ThetaData

theorem tryExps_ne_noExp {env : GreeksEnv} :
    ∀ (l : List ℤ), tryExps env l ≠ .noExpirations := by
  intro l
  induction l with
  | nil => intro h; cases h
  | cons e rest ih =>
    rw [tryExps]
    by_cases hs : sortInts (env.strikes e) = []
    · rw [if_pos hs]
      exact ih
    · rw [if_neg hs]
      cases htr : tryRights env e (chosenStrikeOf env e) [OptRight.C, OptRight.P] with
      | some res =>
        dsimp only
        rcases tryRights_some htr with ⟨r, -, -, rfl⟩
        exact deriveFrame_ne_noExp _
      | none =>
        dsimp only
        exact ih

theorem tryExps_ok {env : GreeksEnv} :
    ∀ {l : List ℤ} {tb : Table}, tryExps env l = .ok tb →
      ∃ rows, deriveFrame rows = .ok tb := by
  intro l
  induction l with
  | nil => intro tb h; cases h
  | cons e rest ih =>
    intro tb h
    rw [tryExps] at h
    by_cases hs : sortInts (env.strikes e) = []
    · rw [if_pos hs] at h
      exact ih h
    · rw [if_neg hs] at h
      cases htr : tryRights env e (chosenStrikeOf env e) [OptRight.C, OptRight.P] with
      | some res =>
        rw [htr] at h
        dsimp only at h
        rcases tryRights_some htr with ⟨r, -, -, rfl⟩
        exact ⟨_, h⟩
      | none =>
        rw [htr] at h
        dsimp only at h
        exact ih h

theorem deriveFrame_ok_nonempty {rows : List GRow} {tb : Table}
    (h : deriveFrame rows = .ok tb) : tb.rows ≠ [] := by
  rw [deriveFrame] at h
  by_cases hv : sortByTs (rows.filter validUp) = []
  · rw [if_pos hv] at h
    cases h
  · rw [if_neg hv] at h
    cases h
    intro hc
    have hlen : (fix_dataframe (underlyingFrame
        (sortByTs (rows.filter validUp)))).rows.length = 0 := by
      rw [hc]
      rfl
    rw [fix_rows_length] at hlen
    cases hval : sortByTs (rows.filter validUp) with
    | nil => exact hv hval
    | cons g rest =>
      have hmem : minuteOf g ∈ sortedDedup ((sortByTs (rows.filter validUp)).map minuteOf) := by
        rw [mem_sortedDedup, hval]
        exact List.mem_map.2 ⟨g, List.mem_cons_self _ _, rfl⟩
      have hpos : 0 < (underlyingFrame (sortByTs (rows.filter validUp))).rows.length := by
        rw [underlyingFrame]
        rw [List.length_map]
        exact List.length_pos.2 (List.ne_nil_of_mem hmem)
      rw [hlen] at hpos
      exact absurd hpos (by omega)

theorem tryRights_of_firstUsableRights {env : GreeksEnv} {e K : ℤ} :
    ∀ {rl : List OptRight} {r : OptRight}, firstUsableRights env e K rl = some r →
      tryRights env e K rl = some (deriveFrame (flattenItems (env.greeks e K r))) := by
  intro rl
  induction rl with
  | nil => intro r h; cases h
  | cons r0 rs ih =>
    intro r h
    rw [firstUsableRights] at h
    rw [tryRights]
    by_cases hu : usableRight env e K r0 = true
    · rw [if_pos hu] at h
      cases h
      rw [if_pos hu]
    · rw [if_neg hu] at h
      rw [if_neg hu]
      exact ih h

theorem tryRights_none_of_firstUsableRights {env : GreeksEnv} {e K : ℤ} :
    ∀ {rl : List OptRight}, firstUsableRights env e K rl = none →
      tryRights env e K rl = none := by
  intro rl
  induction rl with
  | nil => intro _; rfl
  | cons r0 rs ih =>
    intro h
    rw [firstUsableRights] at h
    rw [tryRights]
    by_cases hu : usableRight env e K r0 = true
    · rw [if_pos hu] at h
      cases h
    · rw [if_neg hu] at h
      rw [if_neg hu]
      exact ih h

theorem tryExps_of_firstUsableIn {env : GreeksEnv} :
    ∀ {l : List ℤ} {e : ℤ} {r : OptRight}, firstUsableIn env l = some (e, r) →
      tryExps env l = deriveFrame (flattenItems (env.greeks e (chosenStrikeOf env e) r)) := by
  intro l
  induction l with
  | nil => intro e r h; cases h
  | cons e0 rest ih =>
    intro e r h
    rw [firstUsableIn] at h
    rw [tryExps]
    by_cases hs : sortInts (env.strikes e0) = []
    · rw [if_pos hs] at h
      rw [if_pos hs]
      exact ih h
    · rw [if_neg hs] at h
      rw [if_neg hs]
      cases hfr : firstUsableRights env e0 (chosenStrikeOf env e0)
          [OptRight.C, OptRight.P] with
      | some r0 =>
        rw [hfr] at h
        dsimp only at h
        cases h
        rw [tryRights_of_firstUsableRights hfr]
      | none =>
        rw [hfr] at h
        dsimp only at h
        rw [tryRights_none_of_firstUsableRights hfr]
        exact ih h

theorem fetch_of_firstUsable {env : GreeksEnv} {e : ℤ} {r : OptRight}
    (h : firstUsable env = some (e, r)) :
    fetch_underlying_ohlc env =
      deriveFrame (flattenItems (env.greeks e (chosenStrikeOf env e) r)) := by
  rw [firstUsable] at h
  have hne : ¬ env.expirations = [] := by
    intro hc
    rw [hc] at h
    cases h
  rw [fetch_underlying_ohlc, if_neg hne]
  exact tryExps_of_firstUsableIn h

end ThetaData

namespace ThetaData

/-- C7: an expiration with an empty strike list is skipped by the
derivation search; otherwise the at-the-money proxy strike is the element
at the integer-division midpoint index of the sorted strike list; for the
sorted strikes [90, 95, 100, 105, 110] the chosen strike is 100, and on
`envC7` the derivation skips the strike-less first expiration and
succeeds from the midpoint strike of the second. -/
theorem atm_strike_selection :
    (∀ (env : GreeksEnv) (e : ℤ) (rest : List ℤ), sortInts (env.strikes e) = [] →
      tryExps env (e :: rest) = tryExps env rest) ∧
    (∀ (env : GreeksEnv) (e : ℤ), sortInts (env.strikes e) ≠ [] →
      (sortInts (env.strikes e))[(sortInts (env.strikes e)).length / 2]? =
        some (chosenStrikeOf env e)) ∧
    sortInts [95, 100, 90, 110, 105] = [90, 95, 100, 105, 110] ∧
    chosenStrikeOf envC7 20 = 100 ∧
    fetch_underlying_ohlc envC7 = .ok tblC7 := by
  refine ⟨?_, ?_, by decide, by decide, by decide⟩
  · intro env e rest h
    rw [tryExps, if_pos h]
  · intro env e h
    have hlt : (sortInts (env.strikes e)).length / 2 < (sortInts (env.strikes e)).length := by
      have := List.length_pos.2 h
      omega
    rw [chosenStrikeOf, List.getD_eq_getElem?_getD, List.getElem?_eq_getElem hlt]
    rfl

/-- C7 witness: the skip equation and the midpoint equation, applied at
the concrete environment. -/
theorem atm_strike_selection_witness :
    tryExps envC7 [10, 20] = tryExps envC7 [20] ∧
      (sortInts (envC7.strikes 20))[(sortInts (envC7.strikes 20)).length / 2]? =
        some (chosenStrikeOf envC7 20) :=
  ⟨atm_strike_selection.1 envC7 10 [20] (by decide),
    atm_strike_selection.2.1 envC7 20 (by decide)⟩

/-- C8 (amended): the derivation fails with the no-expirations error
exactly when the expiration list is empty, fails with the
derivation-failed error exactly when the list is non-empty and the
2-expiration × 2-right search finds nothing usable, and in all other
cases either returns a derived series or fails with the empty-data error
raised by the `UnderlyingData` constructor. -/
theorem derivation_errors (env : GreeksEnv) :
    (fetch_underlying_ohlc env = .noExpirations ↔ env.expirations = []) ∧
    (fetch_underlying_ohlc env = .derivationFailed ↔
      env.expirations ≠ [] ∧ searchExhausted env = true) ∧
    (env.expirations ≠ [] → searchExhausted env = false →
      (∃ tb, fetch_underlying_ohlc env = .ok tb) ∨
        fetch_underlying_ohlc env = .emptyUnderlying) := by
  have hexh : searchExhausted env = true ↔
      ∀ e ∈ env.expirations.take 2, expUsable env e = false := by
    rw [searchExhausted, List.all_eq_true]
    constructor
    · intro h e he
      have := h e he
      rwa [Bool.not_eq_true'] at this
    · intro h e he
      rw [Bool.not_eq_true']
      exact h e he
  refine ⟨?_, ?_, ?_⟩
  · by_cases he : env.expirations = []
    · rw [fetch_underlying_ohlc, if_pos he]
      exact ⟨fun _ => he, fun _ => rfl⟩
    · rw [fetch_underlying_ohlc, if_neg he]
      exact ⟨fun h => absurd h (tryExps_ne_noExp _), fun h => absurd h he⟩
  · by_cases he : env.expirations = []
    · rw [fetch_underlying_ohlc, if_pos he]
      exact ⟨(fun h => nomatch h), fun h => absurd he h.1⟩
    · rw [fetch_underlying_ohlc, if_neg he]
      rw [tryExps_derivFailed_iff, hexh]
      exact ⟨fun h => ⟨he, h⟩, fun h => h.2⟩
  · intro he hnex
    cases hF : fetch_underlying_ohlc env with
    | ok tb => exact Or.inl ⟨tb, rfl⟩
    | noExpirations =>
      exfalso
      have h1 : fetch_underlying_ohlc env = .noExpirations := hF
      rw [fetch_underlying_ohlc, if_neg he] at h1
      exact tryExps_ne_noExp _ h1
    | derivationFailed =>
      exfalso
      have h1 : fetch_underlying_ohlc env = .derivationFailed := hF
      rw [fetch_underlying_ohlc, if_neg he, tryExps_derivFailed_iff, ← hexh] at h1
      rw [h1] at hnex
      cases hnex
    | emptyUnderlying => exact Or.inr rfl

/-- C8 witness: the no-expirations error on an empty environment, and the
derivation-failed error on a strike-less environment. -/
theorem derivation_errors_witness :
    fetch_underlying_ohlc envEmpty = .noExpirations ∧
      fetch_underlying_ohlc envNoStrikes = .derivationFailed :=
  ⟨(derivation_errors envEmpty).1.2 (by decide),
    (derivation_errors envNoStrikes).2.1.2 ⟨by decide, by decide⟩⟩

/-- C8 counterexample: on `envC8` the expiration list is non-empty and the
search is not exhausted, yet no derived series is returned — the committed
response has its underlying-price key missing in every row and the
`UnderlyingData` constructor rejects the empty frame. -/
theorem claimC8_false : ¬ ClaimC8At envC8 := by
  intro h
  have := h.2.2 (by decide) (by decide)
  exact absurd this (by decide)

/-- C10: a successfully returned derivation always holds a non-empty
frame (the `UnderlyingData` constructor rejects empty frames); and when
the search commits to a response whose rows all lack a valid underlying
price, the derivation raises the empty-data error rather than returning
an empty series or continuing the search. -/
theorem underlying_nonempty :
    (∀ (env : GreeksEnv) (tb : Table),
      fetch_underlying_ohlc env = .ok tb → tb.rows ≠ []) ∧
    (∀ (env : GreeksEnv) (e : ℤ) (r : OptRight), firstUsable env = some (e, r) →
      (∀ g ∈ flattenItems (env.greeks e (chosenStrikeOf env e) r), validUp g = false) →
      fetch_underlying_ohlc env = .emptyUnderlying) := by
  constructor
  · intro env tb h
    by_cases he : env.expirations = []
    · rw [fetch_underlying_ohlc, if_pos he] at h
      cases h
    · rw [fetch_underlying_ohlc, if_neg he] at h
      rcases tryExps_ok h with ⟨rows, hd⟩
      exact deriveFrame_ok_nonempty hd
  · intro env e r hfu hinv
    rw [fetch_of_firstUsable hfu, deriveFrame]
    have hfilter : (flattenItems (env.greeks e (chosenStrikeOf env e) r)).filter validUp = [] := by
      rw [List.filter_eq_nil_iff]
      intro g hg
      rw [hinv g hg]
      intro hc
      cases hc
    rw [hfilter]
    have hst : sortByTs ([] : List GRow) = [] := rfl
    rw [if_pos hst]

/-- C10 witness: the non-empty conclusion at the concrete success
environment, and the empty-data error at the all-NaN environment. -/
theorem underlying_nonempty_witness :
    tblC7.rows ≠ [] ∧ fetch_underlying_ohlc envC8 = .emptyUnderlying :=
  ⟨underlying_nonempty.1 envC7 tblC7 (by decide),
    underlying_nonempty.2 envC8 1 OptRight.C (by decide) (by decide)⟩

end ThetaData
